import Mathlib

/-!
# NEON codec — verification development

A shallow embedding of the NEON (Neural Efficient Object Notation) codec:
the encoder (`src/encoder.rs`), the lexer and parser (`src/decoder.rs`) and
the supporting types (`src/types.rs`), together with proofs of the
round-trip, formatting, and error-handling properties of the codec.

Modelling conventions:
* IEEE-754 doubles are modelled as rationals (`ℚ`).  Every numeric literal
  appearing in the verified properties is exactly representable along each
  code path, so `fract() == 0.0` corresponds to `q.den = 1` and the Rust
  `{}` / `{:.1}` formatting is reproduced exactly by `fmtRat` / `fmtRatPrec1`.
  Rust's saturating `as i64` cast is modelled by `i64sat`.  To keep every
  definition computable by the kernel, rational arithmetic is written with
  explicit numerator/denominator constructions (`mkRat`); bridging lemmas
  relate them to the ordinary `ℚ` operations.
* Strings are processed as `List Char` (the data of a Lean `String`),
  matching the `Vec<char>` buffer the Rust lexer operates on.
* The JSON value tree is a mutual inductive (`JValue`/`JArr`/`JObj`) so that
  all recursions over it are structural.  The object type: the crate
  manifest is not part of the sources, so the concrete `serde_json::Map`
  ordering feature cannot be read off.  Modelled from the spec: "Object key
  order is preserved by both codecs (insertion order of the source map
  defines emission order)", an object is an insertion-ordered association
  list and `insert` replaces in place.  `serde_json` numbers distinguish
  integers from floats; this is the `JNum` type.
* Tokens keep their `kind` and canonical `value`; the `raw` text and the
  `line`/`column` counters are dropped (they feed only diagnostic messages,
  which no verified property inspects; positions in `Syntax` errors are 0).
* Lexer, parser and encoder recursions are driven by a fuel parameter
  (`Nat`), decremented on every recursive step, so that the kernel can
  evaluate them; the public entry points supply fuel that is sufficient for
  every input reachable in the verified properties.  A ghost high-water
  mark (`hwm`) threaded through the parser records the maximal recursion
  depth reached; it never influences control flow and exists to state the
  `MaxDepth` property.
* The Rust lexer loops forever when `scan_unquoted_string` consumes nothing
  (a bare `$`, `~` or `>` outside a quoted string).  The model makes the
  lexer total by consuming that single character; no verified property's
  inputs reach this situation.
-/

namespace Neon

/-! ## Character and list helpers -/

/-- The delimiter character set of the lexer (`decoder.rs`, `" \t\n\r:,#@$~^>\""`). -/
def delimChars : List Char := [' ', '\t', '\n', '\r', ':', ',', '#', '@', '$', '~', '^', '>', '"']

/-- Horizontal whitespace skipped by the lexer (space, tab, carriage return). -/
def isHWs (c : Char) : Bool := c == ' ' || c == '\t' || c == '\r'

/-- ASCII whitespace, for Rust's `str::trim` (the inputs are ASCII). -/
def isWs (c : Char) : Bool := c == ' ' || c == '\t' || c == '\r' || c == '\n'

/-- Rust `str::trim` on a character list (ASCII whitespace). -/
def trimWs (cs : List Char) : List Char :=
  ((cs.dropWhile (isWs ·)).reverse.dropWhile (isWs ·)).reverse

/-- Replace every occurrence of a character (Rust `str::replace(c, r)` with a
one-character replacement). -/
def replaceChar (c r : Char) (cs : List Char) : List Char :=
  cs.map (fun x => if x = c then r else x)

/-- `Vec::join(sep)`: interleave a separator between list elements. -/
def joinSep (sep : List Char) : List (List Char) → List Char
  | [] => []
  | [x] => x
  | x :: xs => x ++ sep ++ joinSep sep xs

/-! ## Kernel-computable rational arithmetic

The `ℚ` operations of Lean's library are `@[irreducible]`; the codec's
arithmetic is therefore written with explicit `mkRat` constructions, which
the kernel evaluates.  Each helper is accompanied (further below) by a
lemma identifying it with the ordinary rational operation. -/

/-- `10 ^ k` as a natural number. -/
def pow10 (k : ℕ) : ℕ := 10 ^ k

def qOfNat (n : ℕ) : ℚ := mkRat n 1

def qOfInt (i : ℤ) : ℚ := mkRat i 1

/-- `q * 10 ^ k`. -/
def mulPow10 (k : ℕ) (q : ℚ) : ℚ := mkRat (q.num * (pow10 k : ℤ)) q.den

/-- `q / 10 ^ k`. -/
def divPow10 (k : ℕ) (q : ℚ) : ℚ := mkRat q.num (q.den * pow10 k)

/-- `-q`. -/
def qNeg (q : ℚ) : ℚ := mkRat (-q.num) q.den

/-- `|q|` (Rust `f64::abs`). -/
def qAbs (q : ℚ) : ℚ := mkRat (q.num.natAbs : ℤ) q.den

/-- The strict order on `ℚ`, by cross-multiplication (denominators are
positive). -/
def qLt (a b : ℚ) : Bool := a.num * (b.den : ℤ) < b.num * (a.den : ℤ)

def qLe (a b : ℚ) : Bool := a.num * (b.den : ℤ) ≤ b.num * (a.den : ℤ)

/-- `a - b`. -/
def qSub (a b : ℚ) : ℚ :=
  mkRat (a.num * (b.den : ℤ) - b.num * (a.den : ℤ)) (a.den * b.den)

/-! ## Decimal formatting and parsing

The Rust code formats numbers with `format!("{}", _)` (shortest decimal) and
`format!("{:.1}", _)` (one fractional digit), parses with `str::parse::<f64>`
and `str::parse::<usize>`, and casts with `as i64`.  These are reproduced
here for the rational model. -/

/-- Decimal digits of `n`, most significant first, by repeated division
(the fuel argument makes the recursion structural; `n` itself is always
enough fuel). -/
def natToCharsAux : ℕ → ℕ → List Char
  | 0, _ => []
  | fuel + 1, n =>
    if n = 0 then [] else natToCharsAux fuel (n / 10) ++ [Nat.digitChar (n % 10)]

/-- Decimal digits of a natural number, most significant first (`"0"` for 0). -/
def natToChars (n : ℕ) : List Char :=
  if n = 0 then ['0'] else natToCharsAux (n + 1) n

/-- Decimal digits of an integer, with a leading `'-'` when negative. -/
def intToChars (i : ℤ) : List Char :=
  if i < 0 then '-' :: natToChars (-i).toNat else natToChars i.toNat

/-- Numeric value of a digit character. -/
def dval (c : Char) : ℕ := c.toNat - 48

/-- Fold a digit run into a natural number (most significant first). -/
def digitsVal (cs : List Char) : ℕ := cs.foldl (fun a c => 10 * a + dval c) 0

/-- `usize::MAX` on the 64-bit targets this crate is built for. -/
def usizeMax : ℕ := 18446744073709551615

/-- Rust `str::parse::<usize>`: an optional `'+'` then a nonempty digit run;
a value above `usize::MAX` overflows `from_str_radix` into a
`ParseIntError`, so it parses to `none` (and `unwrap_or(0)` then yields 0,
as for array lengths in `parse_array`). -/
def rustParseUsize (cs : List Char) : Option ℕ :=
  let cs := match cs with
    | '+' :: rest => rest
    | _ => cs
  if cs ≠ [] ∧ cs.all (·.isDigit) ∧ digitsVal cs ≤ usizeMax then
    some (digitsVal cs)
  else none

/-- `str::parse::<usize>(..).unwrap_or(0)`. -/
def usizeOr0 (cs : List Char) : ℕ := (rustParseUsize cs).getD 0

/-- Rust `str::parse::<f64>` restricted to the finite decimal grammar
`[+-]? (digits ['.' digits?] | '.' digits)`, yielding
`± (intpart + fracpart / 10 ^ fracdigits)`.  The exponent, `inf` and `NaN`
forms of the full grammar are never produced by this codec and are omitted. -/
def rustParseF64 (cs : List Char) : Option ℚ :=
  let core : List Char → Option ℚ := fun cs =>
    let intD := cs.takeWhile (·.isDigit)
    let rest := cs.drop intD.length
    match rest with
    | [] => if intD = [] then none else some (qOfNat (digitsVal intD))
    | '.' :: r =>
      let fracD := r.takeWhile (·.isDigit)
      let rest2 := r.drop fracD.length
      if rest2 = [] ∧ (intD ≠ [] ∨ fracD ≠ []) then
        some (mkRat (digitsVal intD * pow10 fracD.length + digitsVal fracD) (pow10 fracD.length))
      else none
    | _ => none
  match cs with
  | '-' :: rest => (core rest).map qNeg
  | '+' :: rest => core rest
  | _ => core cs

/-- `str::parse::<f64>(..).unwrap_or(0.0)`. -/
def f64Or0 (cs : List Char) : ℚ := (rustParseF64 cs).getD 0

/-- Truncation toward zero (the rounding of Rust's float-to-int `as` cast). -/
def ratTrunc (q : ℚ) : ℤ := if q.num < 0 then -((qNeg q).floor) else q.floor

/-- Rust's saturating `as i64` cast. -/
def i64sat (q : ℚ) : ℤ :=
  max (-9223372036854775808) (min 9223372036854775807 (ratTrunc q))

/-- Smallest number of decimal places (up to 40) that writes `q` exactly,
if any. -/
def decPlaces (q : ℚ) : Option ℕ :=
  (List.range 41).find? (fun k => (mulPow10 k q).den = 1)

/-- Left-pad a digit run with zeros to a given width. -/
def padZeros (w : ℕ) (ds : List Char) : List Char :=
  List.replicate (w - ds.length) '0' ++ ds

/-- Rust `format!("{}", x)` for a nonnegative value with a finite decimal
expansion: the integer part, then (when not integral) a `'.'` and the exact
fractional digits.  (For a value whose expansion needs more than 40 places —
unreachable from the verified properties — the truncated integer part is
produced.) -/
def fmtRatNN (q : ℚ) : List Char :=
  match decPlaces q with
  | some 0 => natToChars q.num.toNat
  | some k =>
    let m := (mulPow10 k q).num.toNat
    natToChars (m / pow10 k) ++ '.' :: padZeros k (natToChars (m % pow10 k))
  | none => natToChars (ratTrunc q).toNat

/-- Rust `format!("{}", x)` on the rational model. -/
def fmtRat (q : ℚ) : List Char :=
  if q.num < 0 then '-' :: fmtRatNN (qNeg q) else fmtRatNN q

/-- Round to the nearest integer, ties to even (the rounding used by Rust's
fixed-precision float formatting of exactly-held values). -/
def roundHalfEven (q : ℚ) : ℤ :=
  let fl := q.floor
  let r := qSub q (qOfInt fl)
  if qLt r (mkRat 1 2) then fl
  else if qLt (mkRat 1 2) r then fl + 1
  else if fl % 2 = 0 then fl else fl + 1

/-- Rust `format!("{:.1}", x)` for a nonnegative value. -/
def fmtRatPrec1 (q : ℚ) : List Char :=
  let m := (roundHalfEven (mulPow10 1 q)).toNat
  natToChars (m / 10) ++ '.' :: natToChars (m % 10)

/-- `str::replace("0.", ".")`: replace every (leftmost-first) occurrence of
the two-character pattern `0.`. -/
def replaceZeroDot : List Char → List Char
  | '0' :: '.' :: rest => '.' :: replaceZeroDot rest
  | c :: rest => c :: replaceZeroDot rest
  | [] => []

end Neon

namespace Neon

/-! ## The JSON value model (`serde_json::Value`)

A mutual inductive family keeps every recursion over values structural.
`JNum` mirrors `serde_json::Number`'s distinction between integer-held and
float-held numbers; `as_f64` is `JNum.toRat`. -/

inductive JNum where
  | int (i : ℤ)
  | float (q : ℚ)
deriving DecidableEq

/-- `Number::as_f64` in the rational model. -/
def JNum.toRat : JNum → ℚ
  | .int i => qOfInt i
  | .float q => q

mutual
inductive JValue where
  | null
  | bool (b : Bool)
  | num (n : JNum)
  | str (s : String)
  | arr (xs : JArr)
  | obj (kvs : JObj)

inductive JArr where
  | nil
  | cons (v : JValue) (rest : JArr)

inductive JObj where
  | nil
  | cons (key : String) (val : JValue) (rest : JObj)
end

deriving instance DecidableEq for JValue

deriving instance DecidableEq for Except

def JArr.ofList : List JValue → JArr
  | [] => .nil
  | v :: r => .cons v (JArr.ofList r)

def JObj.ofList : List (String × JValue) → JObj
  | [] => .nil
  | (k, v) :: r => .cons k v (JObj.ofList r)

def JArr.length : JArr → ℕ
  | .nil => 0
  | .cons _ r => 1 + JArr.length r

/-- `Map::keys`, in insertion order. -/
def JObj.keys : JObj → List String
  | .nil => []
  | .cons k _ r => k :: JObj.keys r

/-- `Map::get`. -/
def JObj.get (key : String) : JObj → Option JValue
  | .nil => none
  | .cons k v r => if k = key then some v else JObj.get key r

/-- `Map::insert`: replace in place when the key is present, else append
(insertion order; see the header on the object model). -/
def JObj.insertKV (key : String) (v : JValue) : JObj → JObj
  | .nil => .cons key v .nil
  | .cons k v' r => if k = key then .cons k v r else .cons k v' (JObj.insertKV key v r)

def jarrAll (p : JValue → Bool) : JArr → Bool
  | .nil => true
  | .cons v r => p v && jarrAll p r

def JValue.isContainer : JValue → Bool
  | .arr _ => true
  | .obj _ => true
  | _ => false

/-- Rational equality as a boolean (rationals are kept reduced, so
structural equality is equality). -/
def qBEq (a b : ℚ) : Bool := a.num == b.num && a.den == b.den

mutual
/-- JSON equivalence: numbers compare by value (`§8` of the spec), all other
shapes structurally, objects by their insertion-ordered entry lists. -/
def jeq : JValue → JValue → Bool
  | .null, .null => true
  | .bool a, .bool b => a == b
  | .num a, .num b => qBEq a.toRat b.toRat
  | .str a, .str b => a == b
  | .arr a, .arr b => jeqArr a b
  | .obj a, .obj b => jeqObj a b
  | _, _ => false

def jeqArr : JArr → JArr → Bool
  | .nil, .nil => true
  | .cons v r, .cons v' r' => jeq v v' && jeqArr r r'
  | _, _ => false

def jeqObj : JObj → JObj → Bool
  | .nil, .nil => true
  | .cons k v r, .cons k' v' r' => k == k' && jeq v v' && jeqObj r r'
  | _, _ => false
end

/-- The equivalence `≡` of the spec, as a proposition. -/
def JEquiv (a b : JValue) : Prop := jeq a b = true

mutual
/-- Node count; used as the fuel budget for the encoder. -/
def jsize (v : JValue) : ℕ :=
  match v with
  | .null => 1
  | .bool _ => 1
  | .num _ => 1
  | .str _ => 1
  | .arr xs => 3 + jsizeA xs
  | .obj kvs => 3 + jsizeO kvs
termination_by structural v

def jsizeA (xs : JArr) : ℕ :=
  match xs with
  | .nil => 1
  | .cons v r => 2 + jsize v + jsizeA r
termination_by structural xs

def jsizeO (kvs : JObj) : ℕ :=
  match kvs with
  | .nil => 1
  | .cons _ v r => 2 + jsize v + jsizeO r
termination_by structural kvs
end

/-! ## Options, symbols, abbreviation tables (`types.rs`) -/

/-! The sigil constants (`types.rs`, `mod symbols`). -/
namespace symbols
def array : Char := '#'
def schema : Char := '^'
def object : Char := '@'
def trueSym : Char := 'T'
def falseSym : Char := 'F'
def nullSym : Char := 'N'
def reference : Char := '$'
def path : Char := '~'
def typePrefix : Char := '>'
def listItem : Char := '-'
def colon : Char := ':'
def comma : Char := ','
end symbols

inductive EncodeMode where
  | readable
  | compact
  | ultraCompact
deriving DecidableEq

structure NeonEncodeOptions where
  mode : EncodeMode
  compressNumbers : Bool
  compressBooleans : Bool
  compressNulls : Bool
  compressStrings : Bool
  abbreviateFields : Bool
  delimiter : Char
  lineEnding : String
  indent : ℕ
  enableReferences : Bool
  maxInlineArray : ℕ

def defaultEncodeOptions : NeonEncodeOptions where
  mode := .compact
  compressNumbers := true
  compressBooleans := true
  compressNulls := true
  compressStrings := true
  abbreviateFields := false
  delimiter := ' '
  lineEnding := "\n"
  indent := 2
  enableReferences := false
  maxInlineArray := 10

structure NeonDecodeOptions where
  strict : Bool
  expandAbbreviations : Bool
  maxDepth : ℕ

def defaultDecodeOptions : NeonDecodeOptions where
  strict := true
  expandAbbreviations := true
  maxDepth := 100

/-- `get_abbreviations`: the forward (long → short) field-name table. -/
def getAbbreviations : List (String × String) :=
  [("department", "dept"), ("description", "desc"), ("configuration", "config"),
   ("application", "app"), ("environment", "env"), ("timestamp", "ts"),
   ("first_name", "fname"), ("last_name", "lname"), ("phone_number", "phone"),
   ("email_address", "emailaddr"), ("notifications", "notif"), ("conversions", "conv")]

/-- `get_expansions`: the reverse (short → long) table. -/
def getExpansions : List (String × String) := getAbbreviations.map (fun p => (p.2, p.1))

/-- `HashMap::get` on the tables (keys are distinct, so association-list
lookup has the same semantics). -/
def tableGet (t : List (String × String)) (key : String) : Option String :=
  (t.find? (fun p => p.1 == key)).map (·.2)

/-! ## Error taxonomy (`error.rs`) -/

inductive NeonError where
  | syntaxError (message : String) (line col : ℕ)
  | typeError (message : String)
  | encodeError (message : String)
  | decodeError (message : String)
  | maxDepth (depth : ℕ)
  | ioError (message : String)
  | jsonError (message : String)
  /-- Model artifact: the fuel of a modelled recursion ran out.  The entry
  points supply fuel sufficient for every input reachable in the verified
  properties, so this never corresponds to a behaviour of the source. -/
  | fuelOut
deriving DecidableEq

end Neon

namespace Neon

/-! ## Encoder (`encoder.rs`) -/

/-- `compress_number`: K/M/B/T suffix compression (`encoder.rs` lines 9–61). -/
def compressNumber (n : ℚ) (enabled : Bool) : List Char :=
  if !enabled then
    if n.den = 1 then intToChars (i64sat n) else fmtRat n
  else
    let absN := qAbs n
    let sign : List Char := if qLt n (qOfNat 0) then ['-'] else []
    if qLe (qOfNat (pow10 12)) absN then
      let val := divPow10 12 absN
      if val.den = 1 then sign ++ intToChars (i64sat val) ++ ['T']
      else sign ++ fmtRatPrec1 val ++ ['T']
    else if qLe (qOfNat (pow10 9)) absN then
      let val := divPow10 9 absN
      if val.den = 1 then sign ++ intToChars (i64sat val) ++ ['B']
      else sign ++ fmtRatPrec1 val ++ ['B']
    else if qLe (qOfNat (pow10 6)) absN then
      let val := divPow10 6 absN
      if val.den = 1 then sign ++ intToChars (i64sat val) ++ ['M']
      else sign ++ fmtRatPrec1 val ++ ['M']
    else if qLe (qOfNat (pow10 3)) absN then
      let val := divPow10 3 absN
      if val.den = 1 then sign ++ intToChars (i64sat val) ++ ['K']
      else sign ++ fmtRatPrec1 val ++ ['K']
    else if qLt (qOfNat 0) absN && qLt absN (qOfNat 1) then
      replaceZeroDot (fmtRat n)
    else if n.den = 1 then intToChars (i64sat n)
    else fmtRat n

/-- The regex `^-?\d+(\.\d+)?[KMBT]?$` of `needs_quotes`, as a scanner. -/
def numLike (cs : List Char) : Bool :=
  let cs : List Char := match cs with
    | '-' :: r => r
    | _ => cs
  let d1 := cs.takeWhile (·.isDigit)
  let r1 := cs.drop d1.length
  if d1 = [] then false
  else
    match r1 with
    | [] => true
    | '.' :: r =>
      let d2 := r.takeWhile (·.isDigit)
      if d2 = [] then false
      else
        match r.drop d2.length with
        | [] => true
        | [c] => "KMBT".data.contains c
        | _ => false
    | [c] => "KMBT".data.contains c
    | _ => false

/-- `needs_quotes` (`encoder.rs` lines 64–98). -/
def needsQuotes (s : String) (delimiter : Char) : Bool :=
  let cs := s.data
  if cs = [] then true
  else if [':', '"', '\\', '\n', '\r', '\t'].any (cs.contains ·) then true
  else if delimiter ≠ ' ' && cs.contains delimiter then true
  else if cs.head? = some ' ' || cs.getLast? = some ' ' then true
  else if cs = ['T'] || cs = ['F'] || cs = ['N'] then true
  else if numLike cs then true
  else
    match cs with
    | c :: _ => "#@$~^>-".data.contains c
    | [] => false

/-- One of the sequential single-character `str::replace`s of `escape_string`. -/
def replaceCharStr (c : Char) (rep : List Char) : List Char → List Char
  | [] => []
  | x :: r => (if x = c then rep else [x]) ++ replaceCharStr c rep r

/-- `escape_string`: replace `\`, `"`, newline, carriage return, tab — in that
order (`encoder.rs` lines 101–107). -/
def escapeString (cs : List Char) : List Char :=
  replaceCharStr '\t' "\\t".data
    (replaceCharStr '\r' "\\r".data
      (replaceCharStr '\n' "\\n".data
        (replaceCharStr '"' "\\\"".data
          (replaceCharStr '\\' "\\\\".data cs))))

/-- `NeonEncoder::encode_string` (`encoder.rs` lines 179–189). -/
def encodeString (o : NeonEncodeOptions) (s : String) : List Char :=
  if s.data = [] then "\"\"".data
  else if needsQuotes s o.delimiter then '"' :: escapeString s.data ++ ['"']
  else replaceChar ' ' '_' s.data

/-- The field-name abbreviation applied when `abbreviate_fields` is set. -/
def abbrevKey (o : NeonEncodeOptions) (f : String) : String :=
  if o.abbreviateFields then (tableGet getAbbreviations f).getD f else f

/-- `NeonEncoder::encode_key` (`encoder.rs` lines 191–210). -/
def encodeKey (o : NeonEncodeOptions) (key : String) : List Char :=
  if key.data = [] then "\"\"".data
  else
    let key := abbrevKey o key
    if key.data.contains ':' || key.data.contains '"' ||
        key.data.contains '\\' || key.data.contains '\n' then
      '"' :: escapeString key.data ++ ['"']
    else replaceChar ' ' '_' key.data

/-- HashSet equality of key lists (`is_tabular` compares key sets). -/
def eqKeySet (a b : List String) : Bool := a.all (b.contains ·) && b.all (a.contains ·)

/-- `NeonEncoder::is_tabular` (`encoder.rs` lines 232–252). -/
def isTabular (xs : JArr) : Bool :=
  match xs with
  | .nil => false
  | .cons first _ =>
    match first with
    | .obj fobj =>
      jarrAll (fun v =>
        match v with
        | .obj kvs => eqKeySet kvs.keys fobj.keys
        | _ => false) xs
    | _ => false

/-- `" ".repeat(indent * levels)`. -/
def indentStr (o : NeonEncodeOptions) (levels : ℕ) : List Char :=
  List.replicate (o.indent * levels) ' '

mutual
/-- `NeonEncoder::encode_value` (`encoder.rs` lines 149–177).  The fuel
argument makes the recursion structural; `jsize v` is always enough. -/
def encValue (o : NeonEncodeOptions) (fuel : ℕ) (v : JValue) (depth : ℕ) :
    Except NeonError (List Char) :=
  match fuel, v with
  | 0, _ => .error .fuelOut
  | fuel + 1, v =>
    match v with
    | .null => .ok (if o.compressNulls then [symbols.nullSym] else "null".data)
    | .bool b =>
      .ok (if o.compressBooleans then (if b then [symbols.trueSym] else [symbols.falseSym])
           else (if b then "true".data else "false".data))
    | .num n => .ok (compressNumber n.toRat o.compressNumbers)
    | .str s => .ok (encodeString o s)
    | .arr xs => encArray o fuel xs depth
    | .obj kvs => encObject o fuel kvs depth
termination_by structural fuel

/-- `NeonEncoder::encode_array` (`encoder.rs` lines 212–230). -/
def encArray (o : NeonEncodeOptions) (fuel : ℕ) (xs : JArr) (depth : ℕ) :
    Except NeonError (List Char) :=
  match fuel, xs with
  | 0, _ => .error .fuelOut
  | fuel + 1, xs =>
    match xs with
    | .nil => .ok [symbols.array, '0']
    | _ =>
      if isTabular xs then encTabular o fuel xs depth
      else if jarrAll (fun v => !v.isContainer) xs then encPrimitive o fuel xs
      else encList o fuel xs depth
termination_by structural fuel

/-- `NeonEncoder::encode_tabular_array` (`encoder.rs` lines 254–300). -/
def encTabular (o : NeonEncodeOptions) (fuel : ℕ) (xs : JArr) (depth : ℕ) :
    Except NeonError (List Char) :=
  match fuel, xs with
  | 0, _ => .error .fuelOut
  | fuel + 1, xs =>
    match xs with
    | .cons (.obj first) _ =>
      let fields := first.keys
      let schemaFields := fields.map (abbrevKey o)
      .ok (symbols.array :: natToChars xs.length ++ symbols.schema ::
            joinSep [','] (schemaFields.map (·.data)) ++
            encTabRows o fuel fields (indentStr o (depth + 1)) (depth + 1) xs)
    | _ => .error (.encodeError "as_object: not an object")
termination_by structural fuel

/-- The row loop of `encode_tabular_array` (non-object items are skipped, as
in the source's `if let`); `valDepth` is the depth passed to the values. -/
def encTabRows (o : NeonEncodeOptions) (fuel : ℕ) (fields : List String)
    (ind : List Char) (valDepth : ℕ) (xs : JArr) : List Char :=
  match fuel, xs with
  | 0, _ => []
  | fuel + 1, xs =>
    match xs with
    | .nil => []
    | .cons item rest =>
      (match item with
       | .obj itemObj =>
         o.lineEnding.data ++ ind ++
           joinSep [o.delimiter] (encRowVals o fuel fields valDepth itemObj)
       | _ => []) ++ encTabRows o fuel fields ind valDepth rest
termination_by structural fuel

/-- The per-field value emission of a tabular row
(`obj.get(f).map(encode_value ..).unwrap_or_default()`). -/
def encRowVals (o : NeonEncodeOptions) (fuel : ℕ) (fields : List String)
    (valDepth : ℕ) (itemObj : JObj) : List (List Char) :=
  match fuel, fields with
  | 0, _ => []
  | fuel + 1, fields =>
    match fields with
    | [] => []
    | f :: fs =>
      (match JObj.get f itemObj with
       | some v => (encValue o fuel v valDepth).toOption.getD []
       | none => []) :: encRowVals o fuel fs valDepth itemObj
termination_by structural fuel

/-- `NeonEncoder::encode_primitive_array` (`encoder.rs` lines 302–314). -/
def encPrimitive (o : NeonEncodeOptions) (fuel : ℕ) (xs : JArr) :
    Except NeonError (List Char) :=
  match fuel, xs with
  | 0, _ => .error .fuelOut
  | fuel + 1, xs =>
    .ok (symbols.array :: natToChars xs.length ++ ' ' ::
          joinSep [o.delimiter] (encPrimVals o fuel xs))
termination_by structural fuel

/-- The element loop of `encode_primitive_array` (values encoded at depth 0,
errors absorbed by `unwrap_or_default`). -/
def encPrimVals (o : NeonEncodeOptions) (fuel : ℕ) (xs : JArr) : List (List Char) :=
  match fuel, xs with
  | 0, _ => []
  | _ + 1, .nil => []
  | fuel + 1, .cons v r =>
    ((encValue o fuel v 0).toOption.getD []) :: encPrimVals o fuel r
termination_by structural fuel

/-- `NeonEncoder::encode_list_array` (`encoder.rs` lines 316–330). -/
def encList (o : NeonEncodeOptions) (fuel : ℕ) (xs : JArr) (depth : ℕ) :
    Except NeonError (List Char) :=
  match fuel, xs with
  | 0, _ => .error .fuelOut
  | fuel + 1, xs => do
    let rows ← encListRows o fuel (indentStr o (depth + 1)) depth xs
    .ok (symbols.array :: natToChars xs.length ++ rows)
termination_by structural fuel

/-- The row loop of `encode_list_array` (errors propagate via `?`). -/
def encListRows (o : NeonEncodeOptions) (fuel : ℕ) (ind : List Char) (depth : ℕ)
    (xs : JArr) : Except NeonError (List Char) :=
  match fuel, xs with
  | 0, _ => .error .fuelOut
  | fuel + 1, xs =>
    match xs with
    | .nil => .ok []
    | .cons item rest => do
      let e ← encValue o fuel item (depth + 1)
      let rs ← encListRows o fuel ind depth rest
      .ok (o.lineEnding.data ++ ind ++ symbols.listItem :: ' ' :: e ++ rs)
termination_by structural fuel

/-- `NeonEncoder::encode_object` (`encoder.rs` lines 332–422): the empty
object, the root-level single-key tabular special case, and the standard
entry list. -/
def encObject (o : NeonEncodeOptions) (fuel : ℕ) (kvs : JObj) (depth : ℕ) :
    Except NeonError (List Char) :=
  match fuel, kvs with
  | 0, _ => .error .fuelOut
  | fuel + 1, kvs =>
    match kvs with
    | .nil => .ok [symbols.object]
    | .cons key (.arr axs) .nil =>
      if depth = 0 ∧ isTabular axs then
        match axs with
        | .cons (.obj first) _ =>
          let fields := first.keys
          let schemaFields := fields.map (abbrevKey o)
          .ok (key.data ++ symbols.array :: natToChars axs.length ++ symbols.schema ::
                joinSep [','] (schemaFields.map (·.data)) ++
                encTabRows o fuel fields (indentStr o 1) 1 axs)
        | _ => .error (.encodeError "as_object: not an object")
      else encObjStd o fuel (.cons key (.arr axs) .nil) depth
    | _ => encObjStd o fuel kvs depth
termination_by structural fuel

/-- The standard (`@`-prefixed, space-joined) object emission. -/
def encObjStd (o : NeonEncodeOptions) (fuel : ℕ) (kvs : JObj) (depth : ℕ) :
    Except NeonError (List Char) :=
  match fuel, kvs with
  | 0, _ => .error .fuelOut
  | fuel + 1, kvs => do
    let parts ← encObjEntries o fuel kvs depth
    .ok (symbols.object :: joinSep [' '] parts)
termination_by structural fuel

/-- The entry loop of `encode_object`: nested nonempty objects as
`key:{…}`, arrays as `key#…` (no colon), everything else as `key:value`. -/
def encObjEntries (o : NeonEncodeOptions) (fuel : ℕ) (kvs : JObj) (depth : ℕ) :
    Except NeonError (List (List Char)) :=
  match fuel, kvs with
  | 0, _ => .error .fuelOut
  | fuel + 1, kvs =>
    match kvs with
    | .nil => .ok []
    | .cons key v rest => do
      let ek := encodeKey o key
      let part ← (match v with
        | .obj (.cons k' v' r') => do
          let ne ← encObject o fuel (.cons k' v' r') (depth + 1)
          pure (ek ++ ':' :: '{' :: ne.drop 1 ++ ['}'])
        | .arr axs => do
          let e ← encArray o fuel axs (depth + 1)
          pure (ek ++ e)
        | _ => do
          let e ← encValue o fuel v depth
          pure (ek ++ ':' :: e))
      let parts ← encObjEntries o fuel rest depth
      pure (part :: parts)
termination_by structural fuel
end

/-- `NeonEncoder::encode` / the public `encode` entry point, without the
statistics bookkeeping (which goes through the external JSON boundary). -/
def encodeTop (o : NeonEncodeOptions) (v : JValue) : Except NeonError String :=
  (encValue o (jsize v + 1) v 0).map (fun cs => String.mk cs)

/-- `encode` with default options. -/
def encodeDefault (v : JValue) : Except NeonError String :=
  encodeTop defaultEncodeOptions v

end Neon

namespace Neon

/-! ## Lexer (`decoder.rs`, `Lexer`) -/

inductive TokenType where
  | arrayStart
  | schemaStart
  | objectStart
  | colon
  | comma
  | newline
  | indent
  | listItem
  | null
  | boolean
  | number
  | string
  | eof
deriving DecidableEq

/-- A token: its kind and canonical value (see the header for the dropped
`raw`/`line`/`column` fields). -/
structure Token where
  kind : TokenType
  value : List Char
deriving DecidableEq

def eofTok : Token := ⟨.eof, []⟩

/-- `Lexer::is_word_boundary` applied to the rest of the input. -/
def isWordBoundary (cs : List Char) : Bool :=
  match cs with
  | [] => true
  | c :: _ => delimChars.contains c

/-- `expand_number` (`decoder.rs` lines 9–37): strip a K/M/B/T suffix and
scale, or normalise a leading dot, then parse. -/
def expandNumber (cs : List Char) : ℚ :=
  let s := trimWs cs
  if s = [] then 0
  else if s.getLast? = some 'T' then mulPow10 12 (f64Or0 s.dropLast)
  else if s.getLast? = some 'B' then mulPow10 9 (f64Or0 s.dropLast)
  else if s.getLast? = some 'M' then mulPow10 6 (f64Or0 s.dropLast)
  else if s.getLast? = some 'K' then mulPow10 3 (f64Or0 s.dropLast)
  else
    match s with
    | '-' :: '.' :: r => f64Or0 ('-' :: '0' :: '.' :: r)
    | '.' :: _ => f64Or0 ('0' :: s)
    | _ => f64Or0 s

/-- `Lexer::scan_quoted_string`, after the opening quote: the unescaped value
and the rest of the input after the closing quote.  (An unterminated string
ending in a lone backslash makes the Rust code panic on an out-of-range
slice; the model simply ends the token there — unreachable in the verified
properties.) -/
def scanQuoted : List Char → List Char × List Char
  | [] => ([], [])
  | '"' :: r => ([], r)
  | '\\' :: [] => ([], [])
  | '\\' :: e :: r =>
    let c := match e with
      | 'n' => '\n'
      | 'r' => '\r'
      | 't' => '\t'
      | '"' => '"'
      | '\\' => '\\'
      | _ => e
    let (v, rest) := scanQuoted r
    (c :: v, rest)
  | c :: r =>
    let (v, rest) := scanQuoted r
    (c :: v, rest)

/-- `Lexer::scan_number`: optional sign, optional leading dot, digit run,
optional fraction, optional one-character K/M/B/T suffix; returns the raw
span and the rest. -/
def scanNumber (cs : List Char) : List Char × List Char :=
  let p1 : List Char × List Char := match cs with
    | '-' :: r => (['-'], r)
    | _ => ([], cs)
  let sgn := p1.1; let r1 := p1.2
  let p2 : List Char × List Char := match r1 with
    | '.' :: r => (['.'], r)
    | _ => ([], r1)
  let ld := p2.1; let r2 := p2.2
  let d1 := r2.takeWhile (·.isDigit)
  let r3 := r2.drop d1.length
  let p4 : List Char × List Char := match r3 with
    | '.' :: r =>
      let d2 := r.takeWhile (·.isDigit)
      ('.' :: d2, r.drop d2.length)
    | _ => ([], r3)
  let fr := p4.1; let r4 := p4.2
  let p5 : List Char × List Char := match r4 with
    | c :: r => if "KMBT".data.contains c then ([c], r) else ([], r4)
    | _ => ([], r4)
  (sgn ++ ld ++ d1 ++ fr ++ p5.1, p5.2)

/-- `Lexer::scan_unquoted_string`: consume up to the first delimiter. -/
def scanUnquoted (cs : List Char) : List Char × List Char :=
  let raw := cs.takeWhile (fun c => !delimChars.contains c)
  (raw, cs.drop raw.length)

/-- The keyword check at the end of `scan_unquoted_string`. -/
def unquotedToken (raw : List Char) : Token :=
  if raw = "null".data then ⟨.null, "null".data⟩
  else if raw = "true".data then ⟨.boolean, "true".data⟩
  else if raw = "false".data then ⟨.boolean, "false".data⟩
  else ⟨.string, replaceChar '_' ' ' raw⟩

/-- `Lexer::tokenize` / `scan_token` (`decoder.rs` lines 59–152): the
dispatch on the next character, producing the token stream with a final
`Eof`.  Fuel makes the recursion structural; every step consumes at least
one character, so `cs.length` is always enough (see `lexChars_fuel`). -/
def lexChars (fuel : ℕ) (cs : List Char) : List Token :=
  match fuel, cs with
  | 0, _ => [eofTok]
  | _ + 1, [] => [eofTok]
  | fuel + 1, c :: rest =>
    if c == ' ' || c == '\t' || c == '\r' then lexChars fuel rest
    else if c == '\n' then ⟨.newline, ['\n']⟩ :: lexChars fuel rest
    else if c == symbols.array then ⟨.arrayStart, [c]⟩ :: lexChars fuel rest
    else if c == symbols.schema then ⟨.schemaStart, [c]⟩ :: lexChars fuel rest
    else if c == symbols.object then ⟨.objectStart, [c]⟩ :: lexChars fuel rest
    else if c == symbols.colon then ⟨.colon, [c]⟩ :: lexChars fuel rest
    else if c == symbols.comma then ⟨.comma, [c]⟩ :: lexChars fuel rest
    else if c == symbols.listItem then ⟨.listItem, [c]⟩ :: lexChars fuel rest
    else if c == symbols.trueSym && isWordBoundary rest then
      ⟨.boolean, "true".data⟩ :: lexChars fuel rest
    else if c == symbols.falseSym && isWordBoundary rest then
      ⟨.boolean, "false".data⟩ :: lexChars fuel rest
    else if c == symbols.nullSym && isWordBoundary rest then
      ⟨.null, "null".data⟩ :: lexChars fuel rest
    else if c == '"' then
      let p := scanQuoted rest
      ⟨.string, p.1⟩ :: lexChars fuel p.2
    else if c.isDigit || c == '-' || c == '.' then
      let p := scanNumber (c :: rest)
      ⟨.number, fmtRat (expandNumber p.1)⟩ :: lexChars fuel p.2
    else
      let p := scanUnquoted (c :: rest)
      if p.1 = [] then ⟨.string, []⟩ :: lexChars fuel rest
      else unquotedToken p.1 :: lexChars fuel p.2
termination_by structural fuel

/-- The tokenizer entry point. -/
def lexAll (cs : List Char) : List Token := lexChars (cs.length + 1) cs

/-! ## Parser (`decoder.rs`, `Parser`)

The parser walks the token buffer; the model keeps the still-unconsumed
suffix of the token list.  Each function returns the result, the remaining
tokens, and the ghost depth high-water mark. -/

def isAtEnd (ts : List Token) : Bool :=
  match ts.head? with
  | some t => t.kind == .eof
  | none => true

def checkTok (ts : List Token) (k : TokenType) : Bool :=
  match ts.head? with
  | some t => t.kind == k
  | none => false

/-- `Parser::advance` (does not move past `Eof`). -/
def advanceT (ts : List Token) : List Token := if isAtEnd ts then ts else ts.tail

def skipNewlines (ts : List Token) : List Token :=
  ts.dropWhile (fun t => t.kind == .newline)

/-- `Parser::expand_abbreviation`. -/
def expandAbbrev (o : NeonDecodeOptions) (cs : List Char) : List Char :=
  if o.expandAbbreviations then
    ((tableGet getExpansions (String.mk cs)).map String.data).getD cs
  else cs

mutual
/-- `Parser::parse_value` (`decoder.rs` lines 303–368): depth check, the
named-array lookahead, then the dispatch on the token kind.  `d` is the
current depth, `hw` the ghost high-water mark. -/
def parseValue (o : NeonDecodeOptions) (fuel : ℕ) (ts : List Token) (d hw : ℕ) :
    Except NeonError JValue × List Token × ℕ :=
  match fuel with
  | 0 => (.error .fuelOut, ts, hw)
  | fuel + 1 =>
    let d' := d + 1
    let hw' := max hw d'
    if o.maxDepth < d' then (.error (.maxDepth o.maxDepth), ts, hw')
    else
      match ts.head? with
      | none => (.ok .null, ts, hw')
      | some tok =>
        if tok.kind == .eof then (.ok .null, ts, hw')
        else if tok.kind == .string &&
            (match ts with
             | _ :: t2 :: _ => t2.kind == .arrayStart
             | _ => false) then
          parseNamedArray o fuel ts d' hw'
        else
          match tok.kind with
          | .null => (.ok .null, advanceT ts, hw')
          | .boolean => (.ok (.bool (tok.value == "true".data)), advanceT ts, hw')
          | .number =>
            let q := f64Or0 tok.value
            (.ok (.num (if q.den = 1 then .int (i64sat q) else .float q)), advanceT ts, hw')
          | .string => (.ok (.str (String.mk (expandAbbrev o tok.value))), advanceT ts, hw')
          | .objectStart => parseObject o fuel ts d' hw'
          | .arrayStart => parseArray o fuel ts d' hw'
          | _ => (.ok (.str (String.mk tok.value)), advanceT ts, hw')
termination_by structural fuel

/-- `Parser::parse_named_array` (`decoder.rs` lines 456–466).  (The caller
guarantees a `String` token at the head; the `none` branch models the
source's `unwrap`.) -/
def parseNamedArray (o : NeonDecodeOptions) (fuel : ℕ) (ts : List Token) (d hw : ℕ) :
    Except NeonError JValue × List Token × ℕ :=
  match fuel with
  | 0 => (.error .fuelOut, ts, hw)
  | fuel + 1 =>
    match ts.head? with
    | some nameTok =>
      match parseArray o fuel (advanceT ts) d hw with
      | (.ok a, ts2, hw2) =>
        (.ok (.obj (.cons (String.mk nameTok.value) a .nil)), ts2, hw2)
      | (.error e, ts2, hw2) => (.error e, ts2, hw2)
    | none => (.error (.decodeError "parse_named_array: no token"), ts, hw)
termination_by structural fuel

/-- `Parser::parse_object` (`decoder.rs` lines 370–407): expect `@`, then
the entry loop. -/
def parseObject (o : NeonDecodeOptions) (fuel : ℕ) (ts : List Token) (d hw : ℕ) :
    Except NeonError JValue × List Token × ℕ :=
  match fuel with
  | 0 => (.error .fuelOut, ts, hw)
  | fuel + 1 =>
    if checkTok ts .objectStart then parseObjLoop o fuel (advanceT ts) d hw .nil
    else (.error (.syntaxError "Expected ObjectStart" 0 0), ts, hw)
termination_by structural fuel

/-- The entry loop of `parse_object`: read `key : value` pairs until a
newline, `Eof`, or a non-string token; a consumed key with neither `:` nor
an array start is dropped and ends the loop, as in the source. -/
def parseObjLoop (o : NeonDecodeOptions) (fuel : ℕ) (ts : List Token) (d hw : ℕ)
    (acc : JObj) : Except NeonError JValue × List Token × ℕ :=
  match fuel with
  | 0 => (.error .fuelOut, ts, hw)
  | fuel + 1 =>
    if isAtEnd ts || checkTok ts .newline || checkTok ts .eof then (.ok (.obj acc), ts, hw)
    else
      match ts.head? with
      | some kt =>
        if kt.kind == .string then
          let ts1 := advanceT ts
          let key := String.mk (expandAbbrev o kt.value)
          if checkTok ts1 .colon then
            let ts2 := advanceT ts1
            if checkTok ts2 .arrayStart then
              match parseArray o fuel ts2 d hw with
              | (.ok v, ts3, hw3) => parseObjLoop o fuel ts3 d hw3 (acc.insertKV key v)
              | (.error e, ts3, hw3) => (.error e, ts3, hw3)
            else if checkTok ts2 .newline then
              let ts3 := skipNewlines ts2
              if checkTok ts3 .indent then
                match parseValue o fuel (advanceT ts3) d hw with
                | (.ok v, ts4, hw4) => parseObjLoop o fuel ts4 d hw4 (acc.insertKV key v)
                | (.error e, ts4, hw4) => (.error e, ts4, hw4)
              else parseObjLoop o fuel ts3 d hw (acc.insertKV key .null)
            else
              match parseValue o fuel ts2 d hw with
              | (.ok v, ts3, hw3) => parseObjLoop o fuel ts3 d hw3 (acc.insertKV key v)
              | (.error e, ts3, hw3) => (.error e, ts3, hw3)
          else if checkTok ts1 .arrayStart then
            match parseArray o fuel ts1 d hw with
            | (.ok v, ts2, hw2) => parseObjLoop o fuel ts2 d hw2 (acc.insertKV key v)
            | (.error e, ts2, hw2) => (.error e, ts2, hw2)
          else (.ok (.obj acc), ts1, hw)
        else (.ok (.obj acc), ts, hw)
      | none => (.ok (.obj acc), ts, hw)
termination_by structural fuel

/-- `Parser::parse_schema` (`decoder.rs` lines 468–488): comma-separated
string fields, each abbreviation-expanded.  It cannot fail. -/
def parseSchema (o : NeonDecodeOptions) (fuel : ℕ) (ts : List Token) :
    List (List Char) × List Token :=
  match fuel with
  | 0 => ([], ts)
  | fuel + 1 =>
    match ts.head? with
    | some t =>
      if t.kind == .string then
        let ts1 := advanceT ts
        let f := expandAbbrev o t.value
        if checkTok ts1 .comma then
          let p := parseSchema o fuel (advanceT ts1)
          (f :: p.1, p.2)
        else ([f], ts1)
      else ([], ts)
    | none => ([], ts)
termination_by structural fuel

/-- `Parser::parse_array` (`decoder.rs` lines 409–454): `#`, the length,
an optional `^schema`, then inline values or multiline rows. -/
def parseArray (o : NeonDecodeOptions) (fuel : ℕ) (ts : List Token) (d hw : ℕ) :
    Except NeonError JValue × List Token × ℕ :=
  match fuel with
  | 0 => (.error .fuelOut, ts, hw)
  | fuel + 1 =>
    if !(checkTok ts .arrayStart) then
      (.error (.syntaxError "Expected ArrayStart" 0 0), ts, hw)
    else
      let ts1 := advanceT ts
      match ts1.head? with
      | none => (.error (.syntaxError "Expected array length" 0 0), ts1, hw)
      | some lt =>
        if !(lt.kind == .number) then
          (.error (.syntaxError "Expected array length" 0 0), ts1, hw)
        else
          let ts2 := advanceT ts1
          let len := usizeOr0 lt.value
          if len = 0 then (.ok (.arr .nil), ts2, hw)
          else
            let sp : Option (List (List Char)) × List Token :=
              if checkTok ts2 .schemaStart then
                let p := parseSchema o fuel (advanceT ts2)
                (some p.1, p.2)
              else (none, ts2)
            let ts3 := sp.2
            if !(checkTok ts3 .newline) && !(checkTok ts3 .eof) then
              match parseInline o fuel len ts3 d hw with
              | (.ok vs, ts4, hw4) => (.ok (.arr (.ofList vs)), ts4, hw4)
              | (.error e, ts4, hw4) => (.error e, ts4, hw4)
            else
              match sp.1 with
              | some fields =>
                match parseTabularRows o fuel len fields ts3 d hw with
                | (.ok vs, ts4, hw4) => (.ok (.arr (.ofList vs)), ts4, hw4)
                | (.error e, ts4, hw4) => (.error e, ts4, hw4)
              | none =>
                match parseListRows o fuel len ts3 d hw with
                | (.ok vs, ts4, hw4) => (.ok (.arr (.ofList vs)), ts4, hw4)
                | (.error e, ts4, hw4) => (.error e, ts4, hw4)
termination_by structural fuel

/-- The inline-values loop of `parse_array`: up to `remaining` values on the
same logical line. -/
def parseInline (o : NeonDecodeOptions) (fuel : ℕ) (remaining : ℕ) (ts : List Token)
    (d hw : ℕ) : Except NeonError (List JValue) × List Token × ℕ :=
  match fuel with
  | 0 => (.error .fuelOut, ts, hw)
  | fuel + 1 =>
    match remaining with
    | 0 => (.ok [], ts, hw)
    | r + 1 =>
      if isAtEnd ts || checkTok ts .newline || checkTok ts .eof then (.ok [], ts, hw)
      else
        match parseValue o fuel ts d hw with
        | (.ok v, ts1, hw1) =>
          match parseInline o fuel r ts1 d hw1 with
          | (.ok vs, ts2, hw2) => (.ok (v :: vs), ts2, hw2)
          | (.error e, ts2, hw2) => (.error e, ts2, hw2)
        | (.error e, ts1, hw1) => (.error e, ts1, hw1)
termination_by structural fuel

/-- `Parser::parse_tabular_rows` (`decoder.rs` lines 490–512). -/
def parseTabularRows (o : NeonDecodeOptions) (fuel : ℕ) (remaining : ℕ)
    (fields : List (List Char)) (ts : List Token) (d hw : ℕ) :
    Except NeonError (List JValue) × List Token × ℕ :=
  match fuel with
  | 0 => (.error .fuelOut, ts, hw)
  | fuel + 1 =>
    match remaining with
    | 0 => (.ok [], ts, hw)
    | r + 1 =>
      let ts1 := skipNewlines ts
      let ts2 := if checkTok ts1 .indent then advanceT ts1 else ts1
      match parseRowFields o fuel fields ts2 d hw .nil with
      | (.ok rowObj, ts3, hw3) =>
        match parseTabularRows o fuel r fields ts3 d hw3 with
        | (.ok vs, ts4, hw4) => (.ok (.obj rowObj :: vs), ts4, hw4)
        | (.error e, ts4, hw4) => (.error e, ts4, hw4)
      | (.error e, ts3, hw3) => (.error e, ts3, hw3)
termination_by structural fuel

/-- The per-row field loop of `parse_tabular_rows`: one value per schema
field, stopping early at a newline or the end. -/
def parseRowFields (o : NeonDecodeOptions) (fuel : ℕ) (fields : List (List Char))
    (ts : List Token) (d hw : ℕ) (acc : JObj) :
    Except NeonError JObj × List Token × ℕ :=
  match fuel with
  | 0 => (.error .fuelOut, ts, hw)
  | fuel + 1 =>
    match fields with
    | [] => (.ok acc, ts, hw)
    | f :: fs =>
      if isAtEnd ts || checkTok ts .newline then (.ok acc, ts, hw)
      else
        match parseValue o fuel ts d hw with
        | (.ok v, ts1, hw1) =>
          parseRowFields o fuel fs ts1 d hw1 (acc.insertKV (String.mk f) v)
        | (.error e, ts1, hw1) => (.error e, ts1, hw1)
termination_by structural fuel

/-- `Parser::parse_list_rows` (`decoder.rs` lines 514–532). -/
def parseListRows (o : NeonDecodeOptions) (fuel : ℕ) (remaining : ℕ)
    (ts : List Token) (d hw : ℕ) :
    Except NeonError (List JValue) × List Token × ℕ :=
  match fuel with
  | 0 => (.error .fuelOut, ts, hw)
  | fuel + 1 =>
    match remaining with
    | 0 => (.ok [], ts, hw)
    | r + 1 =>
      let ts1 := skipNewlines ts
      let ts2 := if checkTok ts1 .indent then advanceT ts1 else ts1
      let ts3 := if checkTok ts2 .listItem then advanceT ts2 else ts2
      match parseValue o fuel ts3 d hw with
      | (.ok v, ts4, hw4) =>
        match parseListRows o fuel r ts4 d hw4 with
        | (.ok vs, ts5, hw5) => (.ok (v :: vs), ts5, hw5)
        | (.error e, ts5, hw5) => (.error e, ts5, hw5)
      | (.error e, ts4, hw4) => (.error e, ts4, hw4)
termination_by structural fuel
end

/-- `Parser::parse` (`decoder.rs` lines 289–301): skip leading newlines,
empty stream decodes to `Null`, else one value at depth 0. -/
def parseTokens (o : NeonDecodeOptions) (fuel : ℕ) (ts : List Token) :
    Except NeonError JValue × List Token × ℕ :=
  let ts1 := skipNewlines ts
  if isAtEnd ts1 then (.ok .null, ts1, 0)
  else parseValue o fuel ts1 0 0

/-- The length value a `Number` token contributes to the fuel budget. -/
def lenVal (t : Token) : ℕ := if t.kind == .number then usizeOr0 t.value else 0

/-- Fuel supplied by `decode`: linear in the token count plus the declared
array lengths, which bounds the parser's call depth on every input
reachable in the verified properties. -/
def decodeFuel (ts : List Token) : ℕ := 8 * (ts.length + 2 + (ts.map lenVal).sum)

/-- `NeonDecoder::decode` / the public `decode` entry point, without the
statistics bookkeeping: empty or whitespace-only input is `Null`, otherwise
tokenize and parse. -/
def decodeWith (o : NeonDecodeOptions) (s : String) : Except NeonError JValue :=
  if trimWs s.data = [] then .ok .null
  else (parseTokens o (decodeFuel (lexAll s.data)) (lexAll s.data)).1

/-- `decode` with default options. -/
def decodeDefault (s : String) : Except NeonError JValue := decodeWith defaultDecodeOptions s

end Neon

namespace Neon

/-! ## Round-trip statements -/

/-- `decode(encode(v)) ≡ v` with default options on both sides. -/
def RoundTrips (v : JValue) : Prop :=
  ∃ t w, encodeDefault v = .ok t ∧ decodeDefault t = .ok w ∧ JEquiv w v

/-- The scalar example object of the spec's end-to-end scenario 1. -/
def usersExample : JValue :=
  .obj (.ofList [("users", .arr (.ofList [
    .obj (.ofList [("id", .num (.int 1)), ("name", .str "Alice"), ("active", .bool true)]),
    .obj (.ofList [("id", .num (.int 2)), ("name", .str "Bob"), ("active", .bool false)])]))])

/-- C1 (counterexample): the scalar `-1` does not round-trip.  The lexer
dispatches on `-` as the `ListItem` sigil before the number scanner can see
it, so `decode("-1")` hits the parser's catch-all and yields the string
`"-"`, not the number `-1`. -/
theorem c1_counterexample :
    encodeDefault (.num (.int (-1))) = .ok "-1" ∧
    decodeDefault "-1" = .ok (.str "-") ∧
    ¬ JEquiv (.str "-") (.num (.int (-1))) := by
  refine ⟨rfl, rfl, ?_⟩
  unfold JEquiv
  decide

/-- C1 (amended): every scalar in
`{null, true, false, 0, 1, 42, 3.14, "", "hello", "a b"}` — the original
set minus `-1` — round-trips through encode/decode with default options. -/
theorem c1_scalar_roundtrip :
    RoundTrips .null ∧
    RoundTrips (.bool true) ∧
    RoundTrips (.bool false) ∧
    RoundTrips (.num (.int 0)) ∧
    RoundTrips (.num (.int 1)) ∧
    RoundTrips (.num (.int 42)) ∧
    RoundTrips (.num (.float (mkRat 157 50))) ∧
    RoundTrips (.str "") ∧
    RoundTrips (.str "hello") ∧
    RoundTrips (.str "a b") := by
  refine ⟨⟨"N", .null, rfl, rfl, rfl⟩,
          ⟨"T", .bool true, rfl, rfl, rfl⟩,
          ⟨"F", .bool false, rfl, rfl, rfl⟩,
          ⟨"0", .num (.int 0), rfl, rfl, rfl⟩,
          ⟨"1", .num (.int 1), rfl, rfl, rfl⟩,
          ⟨"42", .num (.int 42), rfl, rfl, rfl⟩,
          ⟨"3.14", .num (.float (mkRat 157 50)), rfl, rfl, rfl⟩,
          ⟨"\"\"", .str "", rfl, rfl, rfl⟩,
          ⟨"hello", .str "hello", rfl, rfl, rfl⟩,
          ⟨"a_b", .str "a b", rfl, rfl, rfl⟩⟩

/-- C3: with default options, the spec's end-to-end scenario 1: the exact
tabular text of the two-user object, and its decoding back to an
equivalent object. -/
theorem c3_users_tabular :
    encodeDefault usersExample = .ok "users#2^id,name,active\n  1 Alice T\n  2 Bob F" ∧
    ∃ w, decodeDefault "users#2^id,name,active\n  1 Alice T\n  2 Bob F" = .ok w ∧
      JEquiv w usersExample := by
  exact ⟨rfl, usersExample, rfl, rfl⟩

/-- C5: the number-compression examples with default options
(`compress_numbers` enabled); `1e12` is float-held in `serde_json`, the
others integer-held, `0.5`/`-0.5` float-held. -/
theorem c5_number_compression :
    encodeDefault (.num (.int 95000)) = .ok "95K" ∧
    encodeDefault (.num (.int 2500000)) = .ok "2.5M" ∧
    encodeDefault (.num (.int 1000000000)) = .ok "1B" ∧
    encodeDefault (.num (.float (mkRat 1000000000000 1))) = .ok "1T" ∧
    encodeDefault (.num (.float (mkRat 1 2))) = .ok ".5" ∧
    encodeDefault (.num (.float (mkRat (-1) 2))) = .ok "-.5" :=
  ⟨rfl, rfl, rfl, rfl, rfl, rfl⟩

end Neon

namespace Neon

/-! ## Number expansion and the parser's number rule (C6) -/

theorem trimWs_concat_nonWs (p : List Char) (a : Char) (ha : isWs a = false)
    (hh : ∀ c, p.head? = some c → isWs c = false) : trimWs (p ++ [a]) = p ++ [a] := by
  unfold trimWs
  have h1 : (p ++ [a]).dropWhile (isWs ·) = p ++ [a] := by
    cases p with
    | nil => simp [List.dropWhile_cons, ha]
    | cons c cs => have := hh c rfl; simp [List.dropWhile_cons, this]
  rw [h1]
  have h2 : (p ++ [a]).reverse.dropWhile (isWs ·) = (p ++ [a]).reverse := by
    rw [List.reverse_append]
    simp [List.dropWhile_cons, ha]
  rw [h2, List.reverse_reverse]

theorem mulPow10_eq (k : ℕ) (q : ℚ) : mulPow10 k q = q * (10:ℚ)^k := by
  rw [mulPow10, Rat.mkRat_eq_div]
  push_cast [pow10]
  conv_rhs => rw [← Rat.num_div_den q]
  rw [div_mul_eq_mul_div]

theorem expandNumber_K (p : List Char)
    (hh : p.head?.all (fun c => !isWs c) = true) :
    expandNumber (p ++ ['K']) = f64Or0 p * 1000 := by
  have hh' : ∀ c, p.head? = some c → isWs c = false := fun c hc => by
    rw [hc] at hh; simpa using hh
  have ht := trimWs_concat_nonWs p 'K' (by decide) hh'
  unfold expandNumber
  rw [ht]
  simp only [(show ¬(p ++ ['K'] = []) by simp), if_false,
    (show (p ++ ['K']).getLast? = some 'K' by simp), Option.some.injEq]
  norm_num [mulPow10_eq]
  simp

theorem expandNumber_M (p : List Char)
    (hh : p.head?.all (fun c => !isWs c) = true) :
    expandNumber (p ++ ['M']) = f64Or0 p * 1000000 := by
  have hh' : ∀ c, p.head? = some c → isWs c = false := fun c hc => by
    rw [hc] at hh; simpa using hh
  have ht := trimWs_concat_nonWs p 'M' (by decide) hh'
  unfold expandNumber
  rw [ht]
  simp only [(show ¬(p ++ ['M'] = []) by simp), if_false,
    (show (p ++ ['M']).getLast? = some 'M' by simp), Option.some.injEq]
  norm_num [mulPow10_eq]
  simp

theorem expandNumber_B (p : List Char)
    (hh : p.head?.all (fun c => !isWs c) = true) :
    expandNumber (p ++ ['B']) = f64Or0 p * 1000000000 := by
  have hh' : ∀ c, p.head? = some c → isWs c = false := fun c hc => by
    rw [hc] at hh; simpa using hh
  have ht := trimWs_concat_nonWs p 'B' (by decide) hh'
  unfold expandNumber
  rw [ht]
  simp only [(show ¬(p ++ ['B'] = []) by simp), if_false,
    (show (p ++ ['B']).getLast? = some 'B' by simp), Option.some.injEq]
  norm_num [mulPow10_eq]
  simp

theorem expandNumber_T (p : List Char)
    (hh : p.head?.all (fun c => !isWs c) = true) :
    expandNumber (p ++ ['T']) = f64Or0 p * 1000000000000 := by
  have hh' : ∀ c, p.head? = some c → isWs c = false := fun c hc => by
    rw [hc] at hh; simpa using hh
  have ht := trimWs_concat_nonWs p 'T' (by decide) hh'
  unfold expandNumber
  rw [ht]
  simp only [(show ¬(p ++ ['T'] = []) by simp), if_false,
    (show (p ++ ['T']).getLast? = some 'T' by simp), Option.some.injEq]
  norm_num [mulPow10_eq]

/-! Single-step `parse_value` lemmas for scalar tokens, shared by several
properties below. -/

theorem parseValue_numberTok (o : NeonDecodeOptions) (fuel : ℕ) (v : List Char)
    (ts : List Token) (d hw : ℕ) (hd : d + 1 ≤ o.maxDepth) :
    parseValue o (fuel + 1) (⟨.number, v⟩ :: ts) d hw =
      (.ok (.num (if (f64Or0 v).den = 1 then .int (i64sat (f64Or0 v))
                  else .float (f64Or0 v))), ts, max hw (d + 1)) := by
  simp [parseValue, Nat.not_lt.mpr hd, advanceT, isAtEnd]

theorem parseValue_stringTok (o : NeonDecodeOptions) (fuel : ℕ) (v : List Char)
    (ts : List Token) (d hw : ℕ) (hd : d + 1 ≤ o.maxDepth)
    (hna : ∀ t2, ts.head? = some t2 → ¬t2.kind = .arrayStart) :
    parseValue o (fuel + 1) (⟨.string, v⟩ :: ts) d hw =
      (.ok (.str (String.mk (expandAbbrev o v))), ts, max hw (d + 1)) := by
  match ts with
  | [] => simp [parseValue, Nat.not_lt.mpr hd, advanceT, isAtEnd]
  | t2 :: rest =>
    have := hna t2 rfl
    simp [parseValue, Nat.not_lt.mpr hd, advanceT, isAtEnd, this]

/-- C6: `decode` expands abbreviated numbers — the three concrete examples,
the general suffix law (`expand_number` multiplies the parsed prefix by
10³/10⁶/10⁹/10¹²), and the parser's `Number` rule (an integer value exactly
when the expanded double has zero fractional part, a double otherwise). -/
theorem c6_decode_numbers :
    decodeDefault "95K" = .ok (.num (.int 95000)) ∧
    decodeDefault "2.5M" = .ok (.num (.int 2500000)) ∧
    decodeDefault ".5" = .ok (.num (.float (mkRat 1 2))) ∧
    (∀ p : List Char, p.head?.all (fun c => !isWs c) = true →
      expandNumber (p ++ ['K']) = f64Or0 p * 1000 ∧
      expandNumber (p ++ ['M']) = f64Or0 p * 1000000 ∧
      expandNumber (p ++ ['B']) = f64Or0 p * 1000000000 ∧
      expandNumber (p ++ ['T']) = f64Or0 p * 1000000000000) ∧
    (∀ (o : NeonDecodeOptions) (fuel : ℕ) (v : List Char) (ts : List Token) (d hw : ℕ),
      d + 1 ≤ o.maxDepth →
      parseValue o (fuel + 1) (⟨.number, v⟩ :: ts) d hw =
        (.ok (.num (if (f64Or0 v).den = 1 then .int (i64sat (f64Or0 v))
                    else .float (f64Or0 v))), ts, max hw (d + 1))) := by
  refine ⟨rfl, rfl, rfl, ?_, ?_⟩
  · intro p hh
    exact ⟨expandNumber_K p hh, expandNumber_M p hh, expandNumber_B p hh, expandNumber_T p hh⟩
  · intro o fuel v ts d hw hd
    exact parseValue_numberTok o fuel v ts d hw hd

theorem c6_decode_numbers_witness :
    (expandNumber ("2.5".data ++ ['M']) = f64Or0 "2.5".data * 1000000) ∧
    parseValue defaultDecodeOptions (0 + 1) (⟨.number, "5".data⟩ :: [eofTok]) 0 0 =
      (.ok (.num (if (f64Or0 "5".data).den = 1 then .int (i64sat (f64Or0 "5".data))
                  else .float (f64Or0 "5".data))), [eofTok], max 0 (0 + 1)) :=
  ⟨(c6_decode_numbers.2.2.2.1 "2.5".data (by decide)).2.1,
   c6_decode_numbers.2.2.2.2 defaultDecodeOptions 0 "5".data [eofTok] 0 0 (by decide)⟩

end Neon

namespace Neon

/-! ## Option fields without effect (C10) -/

theorem encodeString_congr {o₁ o₂ : NeonEncodeOptions} (h : o₁.delimiter = o₂.delimiter) :
    encodeString o₁ = encodeString o₂ := by
  funext s; simp [encodeString, h]

theorem abbrevKey_congr {o₁ o₂ : NeonEncodeOptions}
    (h : o₁.abbreviateFields = o₂.abbreviateFields) : abbrevKey o₁ = abbrevKey o₂ := by
  funext f; simp [abbrevKey, h]

theorem encodeKey_congr {o₁ o₂ : NeonEncodeOptions}
    (h : o₁.abbreviateFields = o₂.abbreviateFields) : encodeKey o₁ = encodeKey o₂ := by
  funext k; simp [encodeKey, abbrevKey_congr h]

theorem indentStr_congr {o₁ o₂ : NeonEncodeOptions} (h : o₁.indent = o₂.indent) :
    indentStr o₁ = indentStr o₂ := by
  funext n; simp [indentStr, h]

theorem encCongr (o₁ o₂ : NeonEncodeOptions)
    (h1 : o₁.compressNumbers = o₂.compressNumbers)
    (h2 : o₁.compressBooleans = o₂.compressBooleans)
    (h3 : o₁.compressNulls = o₂.compressNulls)
    (h4 : o₁.abbreviateFields = o₂.abbreviateFields)
    (h5 : o₁.delimiter = o₂.delimiter)
    (h6 : o₁.lineEnding = o₂.lineEnding)
    (h7 : o₁.indent = o₂.indent) :
    ∀ fuel,
      (∀ v depth, encValue o₁ fuel v depth = encValue o₂ fuel v depth) ∧
      (∀ xs depth, encArray o₁ fuel xs depth = encArray o₂ fuel xs depth) ∧
      (∀ xs depth, encTabular o₁ fuel xs depth = encTabular o₂ fuel xs depth) ∧
      (∀ fields ind vd xs, encTabRows o₁ fuel fields ind vd xs = encTabRows o₂ fuel fields ind vd xs) ∧
      (∀ fields vd ob, encRowVals o₁ fuel fields vd ob = encRowVals o₂ fuel fields vd ob) ∧
      (∀ xs, encPrimitive o₁ fuel xs = encPrimitive o₂ fuel xs) ∧
      (∀ xs, encPrimVals o₁ fuel xs = encPrimVals o₂ fuel xs) ∧
      (∀ xs depth, encList o₁ fuel xs depth = encList o₂ fuel xs depth) ∧
      (∀ ind depth xs, encListRows o₁ fuel ind depth xs = encListRows o₂ fuel ind depth xs) ∧
      (∀ kvs depth, encObject o₁ fuel kvs depth = encObject o₂ fuel kvs depth) ∧
      (∀ kvs depth, encObjStd o₁ fuel kvs depth = encObjStd o₂ fuel kvs depth) ∧
      (∀ kvs depth, encObjEntries o₁ fuel kvs depth = encObjEntries o₂ fuel kvs depth) := by
  intro fuel
  induction fuel with
  | zero =>
    refine ⟨?_, ?_, ?_, ?_, ?_, ?_, ?_, ?_, ?_, ?_, ?_, ?_⟩ <;> intros <;>
      simp [encValue, encArray, encTabular, encTabRows, encRowVals, encPrimitive,
        encPrimVals, encList, encListRows, encObject, encObjStd, encObjEntries]
  | succ f ih =>
    obtain ⟨ihV, ihA, ihT, ihTR, ihRV, ihP, ihPV, ihL, ihLR, ihO, ihOS, ihOE⟩ := ih
    refine ⟨?_, ?_, ?_, ?_, ?_, ?_, ?_, ?_, ?_, ?_, ?_, ?_⟩
    · intro v depth
      cases v <;>
        simp [encValue, h1, h2, h3, encodeString_congr h5, ihA, ihO]
    · intro xs depth
      cases xs <;> simp [encArray, ihT, ihP, ihL]
    · intro xs depth
      cases xs with
      | nil => simp [encTabular]
      | cons v r =>
        cases v <;>
          simp [encTabular, abbrevKey_congr h4, indentStr_congr h7, ihTR]
    · intro fields ind vd xs
      cases xs with
      | nil => simp [encTabRows]
      | cons v r =>
        cases v <;> simp [encTabRows, h5, h6, ihRV, ihTR]
    · intro fields vd ob
      cases fields with
      | nil => simp [encRowVals]
      | cons f fs => simp [encRowVals, ihV, ihRV]
    · intro xs
      simp [encPrimitive, h5, ihPV]
    · intro xs
      cases xs <;> simp [encPrimVals, ihV, ihPV]
    · intro xs depth
      simp [encList, indentStr_congr h7, ihLR]
    · intro ind depth xs
      cases xs with
      | nil => simp [encListRows]
      | cons v r => simp [encListRows, h6, ihV, ihLR]
    · intro kvs depth
      cases kvs with
      | nil => simp [encObject]
      | cons k v r =>
        cases v <;> cases r <;>
          simp [encObject, abbrevKey_congr h4, indentStr_congr h7, ihTR, ihOS]
    · intro kvs depth
      simp [encObjStd, ihOE]
    · intro kvs depth
      cases kvs with
      | nil => simp [encObjEntries]
      | cons k v r =>
        cases v <;>
          simp [encObjEntries, encodeKey_congr h4, ihV, ihA, ihO, ihOE]

theorem expandAbbrev_congr {p₁ p₂ : NeonDecodeOptions}
    (h : p₁.expandAbbreviations = p₂.expandAbbreviations) :
    expandAbbrev p₁ = expandAbbrev p₂ := by
  funext cs; simp [expandAbbrev, h]

theorem parseCongr (p₁ p₂ : NeonDecodeOptions)
    (he : p₁.expandAbbreviations = p₂.expandAbbreviations)
    (hm : p₁.maxDepth = p₂.maxDepth) :
    ∀ fuel,
      (∀ ts d hw, parseValue p₁ fuel ts d hw = parseValue p₂ fuel ts d hw) ∧
      (∀ ts d hw, parseNamedArray p₁ fuel ts d hw = parseNamedArray p₂ fuel ts d hw) ∧
      (∀ ts d hw, parseObject p₁ fuel ts d hw = parseObject p₂ fuel ts d hw) ∧
      (∀ ts d hw acc, parseObjLoop p₁ fuel ts d hw acc = parseObjLoop p₂ fuel ts d hw acc) ∧
      (∀ ts, parseSchema p₁ fuel ts = parseSchema p₂ fuel ts) ∧
      (∀ ts d hw, parseArray p₁ fuel ts d hw = parseArray p₂ fuel ts d hw) ∧
      (∀ r ts d hw, parseInline p₁ fuel r ts d hw = parseInline p₂ fuel r ts d hw) ∧
      (∀ r fields ts d hw, parseTabularRows p₁ fuel r fields ts d hw
        = parseTabularRows p₂ fuel r fields ts d hw) ∧
      (∀ fields ts d hw acc, parseRowFields p₁ fuel fields ts d hw acc
        = parseRowFields p₂ fuel fields ts d hw acc) ∧
      (∀ r ts d hw, parseListRows p₁ fuel r ts d hw = parseListRows p₂ fuel r ts d hw) := by
  intro fuel
  induction fuel with
  | zero =>
    refine ⟨?_, ?_, ?_, ?_, ?_, ?_, ?_, ?_, ?_, ?_⟩ <;> intros <;>
      simp [parseValue, parseNamedArray, parseObject, parseObjLoop, parseSchema,
        parseArray, parseInline, parseTabularRows, parseRowFields, parseListRows]
  | succ f ih =>
    obtain ⟨ihV, ihN, ihO, ihOL, ihS, ihA, ihI, ihTR, ihRF, ihLR⟩ := ih
    refine ⟨?_, ?_, ?_, ?_, ?_, ?_, ?_, ?_, ?_, ?_⟩
    · intro ts d hw
      simp [parseValue, hm, expandAbbrev_congr he, ihN, ihO, ihA]
    · intro ts d hw
      simp [parseNamedArray, ihA]
    · intro ts d hw
      simp [parseObject, ihOL]
    · intro ts d hw acc
      simp [parseObjLoop, expandAbbrev_congr he, ihV, ihA, ihOL]
    · intro ts
      simp [parseSchema, expandAbbrev_congr he, ihS]
    · intro ts d hw
      simp [parseArray, ihS, ihI, ihTR, ihLR]
    · intro r ts d hw
      simp [parseInline, ihV, ihI]
    · intro r fields ts d hw
      simp [parseTabularRows, ihRF, ihTR]
    · intro fields ts d hw acc
      simp [parseRowFields, ihV, ihRF]
    · intro r ts d hw
      simp [parseListRows, ihV, ihLR]

/-- C10: the encode options `mode`, `compress_strings`, `max_inline_array`
and `enable_references` have no effect on encoding, and the decode option
`strict` has no effect on decoding: runs whose option records agree on all
the other fields produce identical results. -/
theorem c10_inert_options :
    (∀ o₁ o₂ : NeonEncodeOptions,
      o₁.compressNumbers = o₂.compressNumbers →
      o₁.compressBooleans = o₂.compressBooleans →
      o₁.compressNulls = o₂.compressNulls →
      o₁.abbreviateFields = o₂.abbreviateFields →
      o₁.delimiter = o₂.delimiter →
      o₁.lineEnding = o₂.lineEnding →
      o₁.indent = o₂.indent →
      ∀ v, encodeTop o₁ v = encodeTop o₂ v) ∧
    (∀ p₁ p₂ : NeonDecodeOptions,
      p₁.expandAbbreviations = p₂.expandAbbreviations →
      p₁.maxDepth = p₂.maxDepth →
      ∀ s, decodeWith p₁ s = decodeWith p₂ s) := by
  constructor
  · intro o₁ o₂ h1 h2 h3 h4 h5 h6 h7 v
    unfold encodeTop
    rw [(encCongr o₁ o₂ h1 h2 h3 h4 h5 h6 h7 (jsize v + 1)).1 v 0]
  · intro p₁ p₂ he hm s
    simp only [decodeWith, parseTokens,
      (parseCongr p₁ p₂ he hm (decodeFuel (lexAll s.data))).1]

/-- Encode options differing from the defaults exactly in the four inert
fields. -/
def altEncodeOptions : NeonEncodeOptions := { defaultEncodeOptions with mode := .readable, compressStrings := false, maxInlineArray := 3, enableReferences := true }

/-- Decode options differing from the defaults exactly in `strict`. -/
def altDecodeOptions : NeonDecodeOptions := { defaultDecodeOptions with strict := false }

theorem c10_inert_options_witness :
    encodeTop altEncodeOptions (.num (.int 7)) = encodeTop defaultEncodeOptions (.num (.int 7)) ∧
    decodeWith altDecodeOptions "#2 1 2" = decodeWith defaultDecodeOptions "#2 1 2" :=
  ⟨c10_inert_options.1 altEncodeOptions defaultEncodeOptions rfl rfl rfl rfl rfl rfl rfl
      (.num (.int 7)),
   c10_inert_options.2 altDecodeOptions defaultDecodeOptions rfl rfl "#2 1 2"⟩

end Neon

namespace Neon

/-! ## The encoder constructs no error (C9) -/

theorem jsize_pos (v : JValue) : 1 ≤ jsize v := by cases v <;> simp [jsize] <;> omega

theorem jsizeA_pos (xs : JArr) : 1 ≤ jsizeA xs := by cases xs <;> simp [jsizeA] <;> omega

theorem jsizeO_pos (kvs : JObj) : 1 ≤ jsizeO kvs := by cases kvs <;> simp [jsizeO] <;> omega

theorem isTabular_shape {xs : JArr} (h : isTabular xs = true) :
    ∃ fobj rest, xs = .cons (.obj fobj) rest := by
  match xs with
  | .nil => simp [isTabular] at h
  | .cons first rest =>
    match first with
    | .obj fobj => exact ⟨fobj, rest, rfl⟩
    | .null | .bool _ | .num _ | .str _ | .arr _ => simp [isTabular] at h

theorem encOk (o : NeonEncodeOptions) :
    ∀ fuel,
      (∀ v depth, jsize v ≤ fuel → ∃ cs, encValue o fuel v depth = .ok cs) ∧
      (∀ xs depth, jsizeA xs + 2 ≤ fuel → ∃ cs, encArray o fuel xs depth = .ok cs) ∧
      (∀ xs depth, isTabular xs = true → 1 ≤ fuel →
        ∃ cs, encTabular o fuel xs depth = .ok cs) ∧
      (∀ xs, 1 ≤ fuel → ∃ cs, encPrimitive o fuel xs = .ok cs) ∧
      (∀ xs depth, jsizeA xs + 1 ≤ fuel → ∃ cs, encList o fuel xs depth = .ok cs) ∧
      (∀ ind depth xs, jsizeA xs ≤ fuel → ∃ cs, encListRows o fuel ind depth xs = .ok cs) ∧
      (∀ kvs depth, jsizeO kvs + 2 ≤ fuel → ∃ cs, encObject o fuel kvs depth = .ok cs) ∧
      (∀ kvs depth, jsizeO kvs + 1 ≤ fuel → ∃ cs, encObjStd o fuel kvs depth = .ok cs) ∧
      (∀ kvs depth, jsizeO kvs ≤ fuel → ∃ cs, encObjEntries o fuel kvs depth = .ok cs) := by
  intro fuel
  induction fuel with
  | zero =>
    refine ⟨?_, ?_, ?_, ?_, ?_, ?_, ?_, ?_, ?_⟩
    · intro v depth hs; exact absurd hs (by have := jsize_pos v; omega)
    · intro xs depth hs; exact absurd hs (by omega)
    · intro xs depth _ hs; exact absurd hs (by omega)
    · intro xs hs; exact absurd hs (by omega)
    · intro xs depth hs; exact absurd hs (by omega)
    · intro ind depth xs hs; exact absurd hs (by have := jsizeA_pos xs; omega)
    · intro kvs depth hs; exact absurd hs (by omega)
    · intro kvs depth hs; exact absurd hs (by omega)
    · intro kvs depth hs; exact absurd hs (by have := jsizeO_pos kvs; omega)
  | succ f ih =>
    obtain ⟨ihV, ihA, ihT, ihP, ihL, ihLR, ihO, ihOS, ihOE⟩ := ih
    refine ⟨?_, ?_, ?_, ?_, ?_, ?_, ?_, ?_, ?_⟩
    · intro v depth hs
      cases v with
      | null => exact ⟨_, rfl⟩
      | bool b => exact ⟨_, rfl⟩
      | num n => exact ⟨_, rfl⟩
      | str s => exact ⟨_, rfl⟩
      | arr xs =>
        obtain ⟨cs, hcs⟩ := ihA xs depth (by simp [jsize] at hs; omega)
        exact ⟨cs, by simp [encValue, hcs]⟩
      | obj kvs =>
        obtain ⟨cs, hcs⟩ := ihO kvs depth (by simp [jsize] at hs; omega)
        exact ⟨cs, by simp [encValue, hcs]⟩
    · intro xs depth hs
      cases xs with
      | nil => exact ⟨_, rfl⟩
      | cons v r =>
        by_cases ht : isTabular (.cons v r) = true
        · obtain ⟨cs, hcs⟩ := ihT (.cons v r) depth ht (by omega)
          exact ⟨cs, by simp [encArray, ht, hcs]⟩
        · by_cases hp : jarrAll (fun v => !v.isContainer) (.cons v r) = true
          · obtain ⟨cs, hcs⟩ := ihP (.cons v r) (by omega)
            exact ⟨cs, by simp [encArray, ht, hp, hcs]⟩
          · obtain ⟨cs, hcs⟩ := ihL (.cons v r) depth (by omega)
            exact ⟨cs, by simp [encArray, ht, hp, hcs]⟩
    · intro xs depth ht _
      obtain ⟨fobj, rest, rfl⟩ := isTabular_shape ht
      exact ⟨_, rfl⟩
    · intro xs _
      exact ⟨_, rfl⟩
    · intro xs depth hs
      obtain ⟨cs, hcs⟩ := ihLR (indentStr o (depth + 1)) depth xs (by omega)
      exact ⟨_, by simp only [encList, hcs]; rfl⟩
    · intro ind depth xs hs
      cases xs with
      | nil => exact ⟨_, rfl⟩
      | cons item rest =>
        simp only [jsizeA] at hs
        have h1 := jsizeA_pos rest
        obtain ⟨cs, hcs⟩ := ihV item (depth + 1) (by have := jsize_pos item; omega)
        obtain ⟨cs2, hcs2⟩ := ihLR ind depth rest (by have := jsize_pos item; omega)
        exact ⟨_, by simp only [encListRows, hcs, hcs2]; rfl⟩
    · intro kvs depth hs
      cases kvs with
      | nil => exact ⟨_, rfl⟩
      | cons key v rest =>
        obtain ⟨cs, hcs⟩ := ihOS (.cons key v rest) depth (by omega)
        cases v with
        | arr axs =>
          cases rest with
          | nil =>
            by_cases hd0 : depth = 0 ∧ isTabular axs = true
            · obtain ⟨hdep, htab⟩ := hd0
              subst hdep
              obtain ⟨fobj, arest, haxs⟩ := isTabular_shape htab
              subst haxs
              exact ⟨_, by simp only [encObject, htab, and_self, if_pos]; rfl⟩
            · exact ⟨cs, by simp only [encObject, if_neg hd0, hcs]⟩
          | cons k2 v2 r2 => exact ⟨cs, by simp only [encObject, hcs]⟩
        | null => exact ⟨cs, by simp only [encObject, hcs]⟩
        | bool b => exact ⟨cs, by simp only [encObject, hcs]⟩
        | num n => exact ⟨cs, by simp only [encObject, hcs]⟩
        | str s2 => exact ⟨cs, by simp only [encObject, hcs]⟩
        | obj kvs2 => exact ⟨cs, by simp only [encObject, hcs]⟩
    · intro kvs depth hs
      obtain ⟨parts, hp⟩ := ihOE kvs depth (by omega)
      exact ⟨_, by simp only [encObjStd, hp]; rfl⟩
    · intro kvs depth hs
      cases kvs with
      | nil => exact ⟨_, rfl⟩
      | cons key v rest =>
        simp only [jsizeO] at hs
        have h1 := jsizeO_pos rest
        obtain ⟨parts, hparts⟩ := ihOE rest depth (by have := jsize_pos v; omega)
        cases v with
        | obj kvs2 =>
          cases kvs2 with
          | nil =>
            obtain ⟨cs, hcs⟩ := ihV (.obj .nil) depth (by simp only [jsize, jsizeO] at hs ⊢; omega)
            exact ⟨_, by simp only [encObjEntries, hcs, hparts]; rfl⟩
          | cons k2 v2 r2 =>
            obtain ⟨cs, hcs⟩ := ihO (.cons k2 v2 r2) (depth + 1)
              (by simp only [jsize, jsizeO] at hs ⊢; omega)
            exact ⟨_, by simp only [encObjEntries, hcs, hparts]; rfl⟩
        | arr axs =>
          obtain ⟨cs, hcs⟩ := ihA axs (depth + 1) (by simp only [jsize] at hs ⊢; omega)
          exact ⟨_, by simp only [encObjEntries, hcs, hparts]; rfl⟩
        | null =>
          obtain ⟨cs, hcs⟩ := ihV .null depth (by simp only [jsize] at hs ⊢; omega)
          exact ⟨_, by simp only [encObjEntries, hcs, hparts]; rfl⟩
        | bool b =>
          obtain ⟨cs, hcs⟩ := ihV (.bool b) depth (by simp only [jsize] at hs ⊢; omega)
          exact ⟨_, by simp only [encObjEntries, hcs, hparts]; rfl⟩
        | num n =>
          obtain ⟨cs, hcs⟩ := ihV (.num n) depth (by simp only [jsize] at hs ⊢; omega)
          exact ⟨_, by simp only [encObjEntries, hcs, hparts]; rfl⟩
        | str s2 =>
          obtain ⟨cs, hcs⟩ := ihV (.str s2) depth (by simp only [jsize] at hs ⊢; omega)
          exact ⟨_, by simp only [encObjEntries, hcs, hparts]; rfl⟩

/-- C9: for every value tree and every option record, `encode` returns `Ok`
with some text — no code path constructs an error.  (`jsize v + 1`, the fuel
the entry point supplies, is always sufficient.) -/
theorem c9_encode_total (o : NeonEncodeOptions) (v : JValue) :
    ∃ s, encodeTop o v = .ok s := by
  obtain ⟨cs, hcs⟩ := (encOk o (jsize v + 1)).1 v 0 (by omega)
  exact ⟨String.mk cs, by simp only [encodeTop, hcs]; rfl⟩

end Neon

namespace Neon

/-! ## Equivalence-congruence of the encoder, and idempotence (C7) -/

theorem qBEq_iff {a b : ℚ} : qBEq a b = true ↔ a = b := by
  constructor
  · intro h
    simp [qBEq] at h
    exact Rat.ext h.1 h.2
  · intro h
    subst h
    simp [qBEq]

theorem jeqObj_keys (a b : JObj) (h : jeqObj a b = true) : a.keys = b.keys := by
  match a, b with
  | .nil, .nil => rfl
  | .nil, .cons .. => simp [jeqObj] at h
  | .cons .., .nil => simp [jeqObj] at h
  | .cons k v r, .cons k' v' r' =>
    simp only [jeqObj, Bool.and_eq_true, beq_iff_eq] at h
    simp [JObj.keys, h.1.1, jeqObj_keys r r' h.2]
termination_by structural a

theorem jeqObj_nil_right {b : JObj} (h : jeqObj .nil b = true) : b = .nil := by
  match b with
  | .nil => rfl
  | .cons .. => simp [jeqObj] at h

theorem jeqArr_length (xs ys : JArr) (h : jeqArr xs ys = true) : xs.length = ys.length := by
  match xs, ys with
  | .nil, .nil => rfl
  | .nil, .cons .. => simp [jeqArr] at h
  | .cons .., .nil => simp [jeqArr] at h
  | .cons v r, .cons v' r' =>
    simp only [jeqArr, Bool.and_eq_true] at h
    simp [JArr.length, jeqArr_length r r' h.2]
termination_by structural xs

theorem jeq_isContainer (v w : JValue) (h : jeq v w = true) :
    v.isContainer = w.isContainer := by
  cases v <;> cases w <;> simp_all [jeq, JValue.isContainer]

theorem jeqArr_all {p q : JValue → Bool}
    (hpq : ∀ v w, jeq v w = true → p v = q w) :
    ∀ xs ys, jeqArr xs ys = true → jarrAll p xs = jarrAll q ys := by
  intro xs ys h
  match xs, ys with
  | .nil, .nil => rfl
  | .nil, .cons .. => simp [jeqArr] at h
  | .cons .., .nil => simp [jeqArr] at h
  | .cons v r, .cons v' r' =>
    simp only [jeqArr, Bool.and_eq_true] at h
    simp [jarrAll, hpq v v' h.1, jeqArr_all hpq r r' h.2]

theorem isTabular_jeq (xs ys : JArr) (h : jeqArr xs ys = true) :
    isTabular xs = isTabular ys := by
  match xs, ys with
  | .nil, .nil => rfl
  | .nil, .cons .. => simp [jeqArr] at h
  | .cons .., .nil => simp [jeqArr] at h
  | .cons f r, .cons f' r' =>
    have hh := h
    simp only [jeqArr, Bool.and_eq_true] at hh
    match f, f' with
    | .obj fo, .obj fo' =>
      have hk : fo.keys = fo'.keys := jeqObj_keys fo fo' (by simpa [jeq] using hh.1)
      simp only [isTabular]
      apply jeqArr_all _ _ _ h
      intro v w hvw
      match v, w with
      | .obj kv, .obj kw =>
        have := jeqObj_keys kv kw (by simpa [jeq] using hvw)
        simp [this, hk]
      | .obj _, .null | .obj _, .bool _ | .obj _, .num _ | .obj _, .str _
      | .obj _, .arr _ => simp [jeq] at hvw
      | .null, .obj _ | .bool _, .obj _ | .num _, .obj _ | .str _, .obj _
      | .arr _, .obj _ => simp [jeq] at hvw
      | .null, .null | .null, .bool _ | .null, .num _ | .null, .str _ | .null, .arr _
      | .bool _, .null | .bool _, .bool _ | .bool _, .num _ | .bool _, .str _ | .bool _, .arr _
      | .num _, .null | .num _, .bool _ | .num _, .num _ | .num _, .str _ | .num _, .arr _
      | .str _, .null | .str _, .bool _ | .str _, .num _ | .str _, .str _ | .str _, .arr _
      | .arr _, .null | .arr _, .bool _ | .arr _, .num _ | .arr _, .str _ | .arr _, .arr _ =>
        simp [isTabular]
    | .obj _, .null | .obj _, .bool _ | .obj _, .num _ | .obj _, .str _ | .obj _, .arr _ =>
      simp [jeq] at hh
    | .null, .obj _ | .bool _, .obj _ | .num _, .obj _ | .str _, .obj _ | .arr _, .obj _ =>
      simp [jeq] at hh
    | .null, .null | .null, .bool _ | .null, .num _ | .null, .str _ | .null, .arr _
    | .bool _, .null | .bool _, .bool _ | .bool _, .num _ | .bool _, .str _ | .bool _, .arr _
    | .num _, .null | .num _, .bool _ | .num _, .num _ | .num _, .str _ | .num _, .arr _
    | .str _, .null | .str _, .bool _ | .str _, .num _ | .str _, .str _ | .str _, .arr _
    | .arr _, .null | .arr _, .bool _ | .arr _, .num _ | .arr _, .str _ | .arr _, .arr _ =>
      simp [isTabular]

theorem jeqObj_get (a b : JObj) (h : jeqObj a b = true) (k : String) :
    (JObj.get k a = none ∧ JObj.get k b = none) ∨
    (∃ v w, JObj.get k a = some v ∧ JObj.get k b = some w ∧ jeq v w = true) := by
  match a, b with
  | .nil, .nil => exact Or.inl ⟨rfl, rfl⟩
  | .nil, .cons .. => simp [jeqObj] at h
  | .cons .., .nil => simp [jeqObj] at h
  | .cons k1 v1 r1, .cons k1' v1' r1' =>
    simp only [jeqObj, Bool.and_eq_true, beq_iff_eq] at h
    have hk := h.1.1
    have hv := h.1.2
    have hr := h.2
    by_cases hkk : k1 = k
    · exact Or.inr ⟨v1, v1', by simp [JObj.get, hkk], by simp [JObj.get, ← hk, hkk], hv⟩
    · have hkk' : ¬k1' = k := by rw [← hk]; exact hkk
      have := jeqObj_get r1 r1' hr k
      simpa [JObj.get, hkk, hkk'] using this
termination_by structural a

mutual
theorem jeq_jsize (v w : JValue) (h : jeq v w = true) : jsize v = jsize w := by
  match v, w with
  | .arr xs, .arr ys =>
    simp only [jsize]
    rw [jeqArr_jsizeA xs ys (by simpa [jeq] using h)]
  | .obj a, .obj b =>
    simp only [jsize]
    rw [jeqObj_jsizeO a b (by simpa [jeq] using h)]
  | .arr _, .null | .arr _, .bool _ | .arr _, .num _ | .arr _, .str _ | .arr _, .obj _
  | .obj _, .null | .obj _, .bool _ | .obj _, .num _ | .obj _, .str _ | .obj _, .arr _
  | .null, .arr _ | .bool _, .arr _ | .num _, .arr _ | .str _, .arr _
  | .null, .obj _ | .bool _, .obj _ | .num _, .obj _ | .str _, .obj _ =>
    simp [jeq] at h
  | .null, .null | .null, .bool _ | .null, .num _ | .null, .str _
  | .bool _, .null | .bool _, .bool _ | .bool _, .num _ | .bool _, .str _
  | .num _, .null | .num _, .bool _ | .num _, .num _ | .num _, .str _
  | .str _, .null | .str _, .bool _ | .str _, .num _ | .str _, .str _ => rfl
termination_by structural v

theorem jeqArr_jsizeA (xs ys : JArr) (h : jeqArr xs ys = true) : jsizeA xs = jsizeA ys := by
  match xs, ys with
  | .nil, .nil => rfl
  | .nil, .cons .. => simp [jeqArr] at h
  | .cons .., .nil => simp [jeqArr] at h
  | .cons v r, .cons v' r' =>
    simp only [jeqArr, Bool.and_eq_true] at h
    simp only [jsizeA]
    rw [jeq_jsize v v' h.1, jeqArr_jsizeA r r' h.2]
termination_by structural xs

theorem jeqObj_jsizeO (a b : JObj) (h : jeqObj a b = true) : jsizeO a = jsizeO b := by
  match a, b with
  | .nil, .nil => rfl
  | .nil, .cons .. => simp [jeqObj] at h
  | .cons .., .nil => simp [jeqObj] at h
  | .cons k v r, .cons k' v' r' =>
    simp only [jeqObj, Bool.and_eq_true, beq_iff_eq] at h
    simp only [jsizeO]
    rw [jeq_jsize v v' h.1.2, jeqObj_jsizeO r r' h.2]
termination_by structural a
end

theorem encJeq (o : NeonEncodeOptions) :
    ∀ fuel,
      (∀ v w d, jeq v w = true → encValue o fuel v d = encValue o fuel w d) ∧
      (∀ xs ys d, jeqArr xs ys = true → encArray o fuel xs d = encArray o fuel ys d) ∧
      (∀ xs ys d, jeqArr xs ys = true → encTabular o fuel xs d = encTabular o fuel ys d) ∧
      (∀ fields ind vd xs ys, jeqArr xs ys = true →
        encTabRows o fuel fields ind vd xs = encTabRows o fuel fields ind vd ys) ∧
      (∀ fields vd a b, jeqObj a b = true →
        encRowVals o fuel fields vd a = encRowVals o fuel fields vd b) ∧
      (∀ xs ys, jeqArr xs ys = true → encPrimitive o fuel xs = encPrimitive o fuel ys) ∧
      (∀ xs ys, jeqArr xs ys = true → encPrimVals o fuel xs = encPrimVals o fuel ys) ∧
      (∀ xs ys d, jeqArr xs ys = true → encList o fuel xs d = encList o fuel ys d) ∧
      (∀ ind d xs ys, jeqArr xs ys = true →
        encListRows o fuel ind d xs = encListRows o fuel ind d ys) ∧
      (∀ a b d, jeqObj a b = true → encObject o fuel a d = encObject o fuel b d) ∧
      (∀ a b d, jeqObj a b = true → encObjStd o fuel a d = encObjStd o fuel b d) ∧
      (∀ a b d, jeqObj a b = true → encObjEntries o fuel a d = encObjEntries o fuel b d) := by
  intro fuel
  induction fuel with
  | zero =>
    refine ⟨?_, ?_, ?_, ?_, ?_, ?_, ?_, ?_, ?_, ?_, ?_, ?_⟩ <;> intros <;> rfl
  | succ f ih =>
    obtain ⟨ihV, ihA, ihT, ihTR, ihRV, ihP, ihPV, ihL, ihLR, ihO, ihOS, ihOE⟩ := ih
    have hContainer : ∀ (v w : JValue), jeq v w = true →
        (!v.isContainer) = (!w.isContainer) := by
      intro v w hvw
      rw [jeq_isContainer v w hvw]
    refine ⟨?_, ?_, ?_, ?_, ?_, ?_, ?_, ?_, ?_, ?_, ?_, ?_⟩
    · -- encValue
      intro v w d h
      match v, w with
      | .null, .null => rfl
      | .bool b, .bool b' =>
        have : b = b' := by simpa [jeq] using h
        rw [this]
      | .num a, .num b =>
        have : a.toRat = b.toRat := qBEq_iff.mp (by simpa [jeq] using h)
        simp only [encValue, this]
      | .str s, .str s' =>
        have : s = s' := by simpa [jeq] using h
        rw [this]
      | .arr xs, .arr ys =>
        simp only [encValue]
        exact ihA xs ys d (by simpa [jeq] using h)
      | .obj a, .obj b =>
        simp only [encValue]
        exact ihO a b d (by simpa [jeq] using h)
      | .null, .bool _ | .null, .num _ | .null, .str _ | .null, .arr _ | .null, .obj _
      | .bool _, .null | .bool _, .num _ | .bool _, .str _ | .bool _, .arr _ | .bool _, .obj _
      | .num _, .null | .num _, .bool _ | .num _, .str _ | .num _, .arr _ | .num _, .obj _
      | .str _, .null | .str _, .bool _ | .str _, .num _ | .str _, .arr _ | .str _, .obj _
      | .arr _, .null | .arr _, .bool _ | .arr _, .num _ | .arr _, .str _ | .arr _, .obj _
      | .obj _, .null | .obj _, .bool _ | .obj _, .num _ | .obj _, .str _ | .obj _, .arr _ =>
        simp [jeq] at h
    · -- encArray
      intro xs ys d h
      match xs, ys with
      | .nil, .nil => rfl
      | .nil, .cons .. | .cons .., .nil => simp [jeqArr] at h
      | .cons v r, .cons v' r' =>
        have ht2 : isTabular (.cons v' r') = isTabular (.cons v r) :=
          (isTabular_jeq _ _ h).symm
        have hp2 : jarrAll (fun v => !v.isContainer) (.cons v' r') =
            jarrAll (fun v => !v.isContainer) (.cons v r) :=
          (jeqArr_all hContainer _ _ h).symm
        by_cases ht : isTabular (.cons v r) = true
        · simp only [encArray, ht, ht2, if_pos]
          exact ihT _ _ d h
        · by_cases hp : jarrAll (fun v => !v.isContainer) (.cons v r) = true
          · simp only [encArray, ht, ht2, hp, hp2, if_pos, if_neg]
            exact ihP _ _ h
          · simp only [encArray, ht, ht2, hp, hp2, if_neg]
            exact ihL _ _ d h
    · -- encTabular
      intro xs ys d h
      match xs, ys with
      | .nil, .nil => rfl
      | .nil, .cons .. | .cons .., .nil => simp [jeqArr] at h
      | .cons v r, .cons v' r' =>
        have hv : jeq v v' = true := by
          simp only [jeqArr, Bool.and_eq_true] at h; exact h.1
        match v, v' with
        | .obj fo, .obj fo' =>
          have hkeys : fo'.keys = fo.keys :=
            (jeqObj_keys _ _ (by simpa [jeq] using hv)).symm
          have hlen : JArr.length (.cons (.obj fo') r') = JArr.length (.cons (.obj fo) r) :=
            (jeqArr_length _ _ h).symm
          simp only [encTabular, hkeys, hlen]
          rw [ihTR fo.keys (indentStr o (d + 1)) (d + 1) _ _ h]
        | .obj _, .null | .obj _, .bool _ | .obj _, .num _ | .obj _, .str _ | .obj _, .arr _
        | .null, .obj _ | .bool _, .obj _ | .num _, .obj _ | .str _, .obj _ | .arr _, .obj _ =>
          simp [jeq] at hv
        | .null, .null | .null, .bool _ | .null, .num _ | .null, .str _ | .null, .arr _
        | .bool _, .null | .bool _, .bool _ | .bool _, .num _ | .bool _, .str _ | .bool _, .arr _
        | .num _, .null | .num _, .bool _ | .num _, .num _ | .num _, .str _ | .num _, .arr _
        | .str _, .null | .str _, .bool _ | .str _, .num _ | .str _, .str _ | .str _, .arr _
        | .arr _, .null | .arr _, .bool _ | .arr _, .num _ | .arr _, .str _ | .arr _, .arr _ =>
          rfl
    · -- encTabRows
      intro fields ind vd xs ys h
      match xs, ys with
      | .nil, .nil => rfl
      | .nil, .cons .. | .cons .., .nil => simp [jeqArr] at h
      | .cons item rest, .cons item' rest' =>
        simp only [jeqArr, Bool.and_eq_true] at h
        have htl := ihTR fields ind vd rest rest' h.2
        match item, item' with
        | .obj a, .obj b =>
          have := ihRV fields vd a b (by simpa [jeq] using h.1)
          simp only [encTabRows, this, htl]
        | .obj _, .null | .obj _, .bool _ | .obj _, .num _ | .obj _, .str _ | .obj _, .arr _
        | .null, .obj _ | .bool _, .obj _ | .num _, .obj _ | .str _, .obj _ | .arr _, .obj _ =>
          simp [jeq] at h
        | .null, .null | .null, .bool _ | .null, .num _ | .null, .str _ | .null, .arr _
        | .bool _, .null | .bool _, .bool _ | .bool _, .num _ | .bool _, .str _ | .bool _, .arr _
        | .num _, .null | .num _, .bool _ | .num _, .num _ | .num _, .str _ | .num _, .arr _
        | .str _, .null | .str _, .bool _ | .str _, .num _ | .str _, .str _ | .str _, .arr _
        | .arr _, .null | .arr _, .bool _ | .arr _, .num _ | .arr _, .str _ | .arr _, .arr _ =>
          simp only [encTabRows, htl]
    · -- encRowVals
      intro fields vd a b h
      match fields with
      | [] => rfl
      | fld :: fs =>
        have htl := ihRV fs vd a b h
        rcases jeqObj_get a b h fld with ⟨hna, hnb⟩ | ⟨v, w, hva, hwb, hvw⟩
        · simp only [encRowVals, hna, hnb, htl]
        · have := ihV v w vd hvw
          simp only [encRowVals, hva, hwb, this, htl]
    · -- encPrimitive
      intro xs ys h
      simp only [encPrimitive, (jeqArr_length _ _ h), ihPV _ _ h]
    · -- encPrimVals
      intro xs ys h
      match xs, ys with
      | .nil, .nil => rfl
      | .nil, .cons .. | .cons .., .nil => simp [jeqArr] at h
      | .cons v r, .cons v' r' =>
        simp only [jeqArr, Bool.and_eq_true] at h
        simp only [encPrimVals, ihV v v' 0 h.1, ihPV r r' h.2]
    · -- encList
      intro xs ys d h
      simp only [encList, (jeqArr_length _ _ h), ihLR (indentStr o (d + 1)) d _ _ h]
    · -- encListRows
      intro ind d xs ys h
      match xs, ys with
      | .nil, .nil => rfl
      | .nil, .cons .. | .cons .., .nil => simp [jeqArr] at h
      | .cons v r, .cons v' r' =>
        simp only [jeqArr, Bool.and_eq_true] at h
        simp only [encListRows, ihV v v' (d + 1) h.1, ihLR ind d r r' h.2]
    · -- encObject
      intro a b d h
      match a, b with
      | .nil, .nil => rfl
      | .nil, .cons .. | .cons .., .nil => simp [jeqObj] at h
      | .cons k v r, .cons k' v' r' =>
        have hk : k = k' := by
          simp only [jeqObj, Bool.and_eq_true, beq_iff_eq] at h; exact h.1.1
        have hv : jeq v v' = true := by
          simp only [jeqObj, Bool.and_eq_true] at h; exact h.1.2
        have hr : jeqObj r r' = true := by
          simp only [jeqObj, Bool.and_eq_true] at h; exact h.2
        subst hk
        match v, v' with
        | .arr axs, .arr axs' =>
          have haxs : jeqArr axs axs' = true := by simpa [jeq] using hv
          match r, r' with
          | .nil, .nil =>
            have ht2 : isTabular axs' = isTabular axs := (isTabular_jeq _ _ haxs).symm
            by_cases hc : d = 0 ∧ isTabular axs = true
            · obtain ⟨fobj, arest, hshape⟩ := isTabular_shape hc.2
              have hc2 : isTabular axs' = true := by rw [ht2]; exact hc.2
              obtain ⟨fobj', arest', hshape'⟩ := isTabular_shape hc2
              have hkeys : fobj'.keys = fobj.keys := by
                have : jeq (.obj fobj) (.obj fobj') = true := by
                  rw [hshape, hshape'] at haxs
                  simp only [jeqArr, Bool.and_eq_true] at haxs
                  exact haxs.1
                exact (jeqObj_keys _ _ (by simpa [jeq] using this)).symm
              have hlen : axs'.length = axs.length := (jeqArr_length _ _ haxs).symm
              have hrows := ihTR fobj.keys (indentStr o 1) 1 axs axs' haxs
              simp only [encObject, hc.1, hc.2, hc2, and_self, if_pos]
              rw [hshape, hshape']
              simp only [hkeys]
              rw [hshape, hshape'] at hrows hlen
              simp only [hlen, hrows]
            · have hc2 : ¬(d = 0 ∧ isTabular axs' = true) := by
                rw [ht2]; exact hc
              simp only [encObject, if_neg hc, if_neg hc2]
              exact ihOS _ _ d h
          | .nil, .cons .. | .cons .., .nil => simp [jeqObj] at hr
          | .cons .., .cons .. =>
            simp only [encObject]
            exact ihOS _ _ d h
        | .null, .null | .bool _, .bool _ | .num _, .num _ | .str _, .str _ =>
          simp only [encObject]
          exact ihOS _ _ d h
        | .obj _, .obj _ =>
          simp only [encObject]
          exact ihOS _ _ d h
        | .null, .bool _ | .null, .num _ | .null, .str _ | .null, .arr _ | .null, .obj _
        | .bool _, .null | .bool _, .num _ | .bool _, .str _ | .bool _, .arr _ | .bool _, .obj _
        | .num _, .null | .num _, .bool _ | .num _, .str _ | .num _, .arr _ | .num _, .obj _
        | .str _, .null | .str _, .bool _ | .str _, .num _ | .str _, .arr _ | .str _, .obj _
        | .arr _, .null | .arr _, .bool _ | .arr _, .num _ | .arr _, .str _ | .arr _, .obj _
        | .obj _, .null | .obj _, .bool _ | .obj _, .num _ | .obj _, .str _ | .obj _, .arr _ =>
          simp [jeq] at hv
    · -- encObjStd
      intro a b d h
      simp only [encObjStd, ihOE a b d h]
    · -- encObjEntries
      intro a b d h
      match a, b with
      | .nil, .nil => rfl
      | .nil, .cons .. | .cons .., .nil => simp [jeqObj] at h
      | .cons k v r, .cons k' v' r' =>
        have hk : k = k' := by
          simp only [jeqObj, Bool.and_eq_true, beq_iff_eq] at h; exact h.1.1
        have hv : jeq v v' = true := by
          simp only [jeqObj, Bool.and_eq_true] at h; exact h.1.2
        have hr : jeqObj r r' = true := by
          simp only [jeqObj, Bool.and_eq_true] at h; exact h.2
        subst hk
        have htl := ihOE r r' d hr
        match v, v' with
        | .obj (.cons k2 v2 r2), .obj (.cons k2' v2' r2') =>
          have hinner : jeqObj (.cons k2 v2 r2) (.cons k2' v2' r2') = true := by
            simpa [jeq] using hv
          simp only [encObjEntries, ihO _ _ (d + 1) hinner, htl]
        | .obj .nil, .obj .nil =>
          simp only [encObjEntries, htl]
        | .obj (.cons ..), .obj .nil | .obj .nil, .obj (.cons ..) =>
          exfalso
          simp [jeq, jeqObj] at hv
        | .arr axs, .arr axs' =>
          have : jeqArr axs axs' = true := by simpa [jeq] using hv
          simp only [encObjEntries, ihA _ _ (d + 1) this, htl]
        | .null, .null =>
          simp only [encObjEntries, htl]
        | .bool bb, .bool bb' =>
          have : bb = bb' := by simpa [jeq] using hv
          subst this
          simp only [encObjEntries, htl]
        | .num nn, .num nn' =>
          have := ihV (.num nn) (.num nn') d hv
          simp only [encObjEntries, this, htl]
        | .str ss, .str ss' =>
          have : ss = ss' := by simpa [jeq] using hv
          subst this
          simp only [encObjEntries, htl]
        | .null, .bool _ | .null, .num _ | .null, .str _ | .null, .arr _ | .null, .obj _
        | .bool _, .null | .bool _, .num _ | .bool _, .str _ | .bool _, .arr _ | .bool _, .obj _
        | .num _, .null | .num _, .bool _ | .num _, .str _ | .num _, .arr _ | .num _, .obj _
        | .str _, .null | .str _, .bool _ | .str _, .num _ | .str _, .arr _ | .str _, .obj _
        | .arr _, .null | .arr _, .bool _ | .arr _, .num _ | .arr _, .str _ | .arr _, .obj _
        | .obj _, .null | .obj _, .bool _ | .obj _, .num _ | .obj _, .str _ | .obj _, .arr _ =>
          simp [jeq] at hv

/-- C7 (counterexample): `encode(decode(encode(v))) == encode(v)` fails at
`v = "dept"`: with default options `encode("dept") = "dept"`, decoding
expands the abbreviation to `"department"` (default
`expand_abbreviations = true`), and re-encoding gives `"department"`. -/
theorem c7_counterexample :
    encodeDefault (.str "dept") = .ok "dept" ∧
    decodeDefault "dept" = .ok (.str "department") ∧
    encodeDefault (.str "department") = .ok "department" ∧
    ("department" : String) ≠ "dept" :=
  ⟨rfl, rfl, rfl, by decide⟩

/-- C7 (amended): encoding is idempotent under canonicalization for every
value that round-trips: whenever `decode(encode(v))` succeeds with a value
equivalent to `v` (the round-trip law of §8), re-encoding the decoded value
yields exactly `encode(v)` — equivalent values encode identically. -/
theorem c7_idempotent_amended (v : JValue) (t : String) (w : JValue)
    (h1 : encodeDefault v = .ok t) (h2 : decodeDefault t = .ok w)
    (he : JEquiv w v) : encodeDefault w = .ok t := by
  have hsz : jsize w = jsize v := jeq_jsize w v he
  have hw : encodeTop defaultEncodeOptions w = encodeTop defaultEncodeOptions v := by
    unfold encodeTop
    rw [hsz]
    exact congrArg _ ((encJeq defaultEncodeOptions (jsize v + 1)).1 w v 0 he)
  show encodeTop defaultEncodeOptions w = .ok t
  rw [hw]
  exact h1

theorem c7_idempotent_amended_witness :
    encodeDefault (.num (.int 42)) = .ok "42" :=
  c7_idempotent_amended (.num (.int 42)) "42" (.num (.int 42)) rfl rfl rfl

end Neon

namespace Neon

/-! ## C8: the MaxDepth error and the depth high-water mark -/

end Neon

namespace Neon

/-! ## C4: the quoting rule -/

/-- The regex `^-?\d+(\.\d+)?[KMBT]?$` of the quoting rule, rendered as the
decomposition it denotes: an optional sign, a nonempty digit run, an optional
dot-separated nonempty digit run, and an optional magnitude suffix. -/
def NumRegex (cs : List Char) : Prop :=
  ∃ (sign : Bool) (ds : List Char) (frac : Option (List Char)) (suffix : Option Char),
    ds ≠ [] ∧ ds.all (·.isDigit) = true ∧
    (∀ f, frac = some f → f ≠ [] ∧ f.all (·.isDigit) = true) ∧
    (∀ c, suffix = some c → c ∈ "KMBT".data) ∧
    cs = (if sign then ['-'] else []) ++ ds ++
      (match frac with | some f => '.' :: f | none => []) ++
      (match suffix with | some c => [c] | none => [])

theorem takeWhile_append_of_all {p : Char → Bool} {l r : List Char}
    (h : l.all p = true) : (l ++ r).takeWhile p = l ++ r.takeWhile p := by
  induction l with
  | nil => simp
  | cons a t ihl =>
    simp only [List.all_cons, Bool.and_eq_true] at h
    simp [List.takeWhile_cons, h.1, ihl h.2]

theorem all_takeWhile (p : Char → Bool) (l : List Char) :
    (l.takeWhile p).all p = true := by
  induction l with
  | nil => rfl
  | cons a t ih =>
    by_cases h : p a = true <;> simp [List.takeWhile_cons, h, ih]

theorem takeWhile_drop_eq {p : Char → Bool} (l : List Char) :
    l = l.takeWhile p ++ l.drop (l.takeWhile p).length := by
  obtain ⟨t, ht⟩ := (List.takeWhile_prefix p : l.takeWhile p <+: l)
  have hd := List.drop_left (l.takeWhile p) t
  rw [ht] at hd
  rw [hd]
  exact ht.symm

/-- The post-sign part of `numLike`, split out for the quoting-rule proof;
`numLike_eq_core` ties it to `numLike` definitionally. -/
def numLikeCore (t : List Char) : Bool :=
  let d1 := t.takeWhile (·.isDigit)
  let r1 := t.drop d1.length
  if d1 = [] then false
  else
    match r1 with
    | [] => true
    | '.' :: r =>
      let d2 := r.takeWhile (·.isDigit)
      if d2 = [] then false
      else
        match r.drop d2.length with
        | [] => true
        | [c] => "KMBT".data.contains c
        | _ => false
    | [c] => "KMBT".data.contains c
    | _ => false

theorem numLike_eq_core (cs : List Char) :
    numLike cs = numLikeCore (match cs with | '-' :: r => r | _ => cs) := rfl

/-- The unsigned part of the number regex: digits, optional fraction,
optional magnitude suffix. -/
def CoreRegex (t : List Char) : Prop :=
  ∃ (ds : List Char) (frac : Option (List Char)) (suffix : Option Char),
    ds ≠ [] ∧ ds.all (·.isDigit) = true ∧
    (∀ f, frac = some f → f ≠ [] ∧ f.all (·.isDigit) = true) ∧
    (∀ c, suffix = some c → c ∈ "KMBT".data) ∧
    t = ds ++ (match frac with | some f => '.' :: f | none => []) ++
      (match suffix with | some c => [c] | none => [])

theorem takeWhile_eq_of_all {p : Char → Bool} {l : List Char}
    (h : l.all p = true) : l.takeWhile p = l := by
  have h2 := @takeWhile_append_of_all p l [] h
  simpa using h2

theorem KMBT_not_digit {c : Char} (h : c ∈ "KMBT".data) : c.isDigit = false := by
  fin_cases h <;> rfl

theorem numLikeCore_iff (t : List Char) : numLikeCore t = true ↔ CoreRegex t := by
  constructor
  · intro h
    simp only [numLikeCore] at h
    split at h
    next h1 => simp at h
    next h1 =>
      have ht := @takeWhile_drop_eq (fun x => x.isDigit) t
      split at h
      · rename_i r1 heq
        rw [heq, List.append_nil] at ht
        refine ⟨t.takeWhile (fun x => x.isDigit), none, none, h1, all_takeWhile _ t,
          ?_, ?_, ?_⟩
        · intro f hf
          cases hf
        · intro c hc
          cases hc
        · simpa using ht
      · rename_i r1 r heq
        rw [heq] at ht
        have hr := @takeWhile_drop_eq (fun x => x.isDigit) r
        split at h
        · simp at h
        · rename_i h2
          split at h
          · rename_i heq2
            rw [heq2, List.append_nil] at hr
            refine ⟨t.takeWhile (fun x => x.isDigit),
              some (r.takeWhile (fun x => x.isDigit)), none,
              h1, all_takeWhile _ t, ?_, ?_, ?_⟩
            · intro f hf
              cases hf
              exact ⟨h2, all_takeWhile _ r⟩
            · intro c hc
              cases hc
            · simpa [← hr] using ht
          · rename_i c heq2
            rw [heq2] at hr
            refine ⟨t.takeWhile (fun x => x.isDigit),
              some (r.takeWhile (fun x => x.isDigit)), some c,
              h1, all_takeWhile _ t, ?_, ?_, ?_⟩
            · intro f hf
              cases hf
              exact ⟨h2, all_takeWhile _ r⟩
            · intro c2 hc2
              cases hc2
              simpa using h
            · simpa [← hr] using ht
          · simp at h
      · rename_i r1 c hne heq
        rw [heq] at ht
        refine ⟨t.takeWhile (fun x => x.isDigit), none, some c,
          h1, all_takeWhile _ t, ?_, ?_, ?_⟩
        · intro f hf
          cases hf
        · intro c2 hc2
          cases hc2
          simpa using h
        · simpa using ht
      · simp at h
  · rintro ⟨ds, frac, suffix, hne, hds, hfrac, hsuf, heq⟩
    subst heq
    simp only [numLikeCore]
    cases frac with
    | none =>
      cases suffix with
      | none =>
        simp only [List.append_nil]
        rw [takeWhile_eq_of_all hds, List.drop_length]
        simp [hne]
      | some c =>
        have hc := hsuf c rfl
        have hcd : c.isDigit = false := KMBT_not_digit hc
        simp only [List.append_nil]
        rw [takeWhile_append_of_all hds]
        have h1 : ([c] : List Char).takeWhile (fun x => x.isDigit) = [] := by
          simp [List.takeWhile_cons, hcd]
        rw [h1, List.append_nil, List.drop_left, if_neg hne]
        fin_cases hc <;> rfl
    | some f =>
      have hf := hfrac f rfl
      cases suffix with
      | none =>
        simp only [List.append_nil]
        rw [takeWhile_append_of_all hds]
        have h1 : ('.' :: f).takeWhile (fun x => x.isDigit) = [] := by
          simp [List.takeWhile_cons, show ('.').isDigit = false from rfl]
        rw [h1, List.append_nil, List.drop_left, if_neg hne]
        split
        next => rfl
        next r1 r heq =>
          injection heq with he1 he2
          subst he2
          rw [takeWhile_eq_of_all hf.2, List.drop_length, if_neg hf.1]
        next r1 cc hcne heq =>
          injection heq with he1 he2
          exact (hcne he1.symm).elim
        next r1 hx1 hx2 hx3 =>
          exact (hx2 f rfl).elim
      | some c =>
        have hc := hsuf c rfl
        have hcd : c.isDigit = false := KMBT_not_digit hc
        simp only [List.append_assoc, List.cons_append]
        rw [takeWhile_append_of_all hds]
        have h1 : ('.' :: (f ++ [c])).takeWhile (fun x => x.isDigit) = [] := by
          simp [List.takeWhile_cons, show ('.').isDigit = false from rfl]
        rw [h1, List.append_nil, List.drop_left, if_neg hne]
        split
        next => rfl
        next r1 r heq =>
          injection heq with he1 he2
          subst he2
          rw [takeWhile_append_of_all hf.2]
          have h2 : ([c] : List Char).takeWhile (fun x => x.isDigit) = [] := by
            simp [List.takeWhile_cons, hcd]
          rw [h2, List.append_nil, if_neg hf.1, List.drop_left]
          split
          next => rfl
          next x cc heq2 =>
            injection heq2 with hx hy
            subst hx
            simpa using hc
          next => simpa using hc
        next r1 cc hcne heq =>
          injection heq with he1 he2
          exact (hcne he1.symm).elim
        next r1 hx1 hx2 hx3 =>
          exact (hx2 (f ++ [c]) rfl).elim

theorem numLike_cons_dash (r : List Char) : numLike ('-' :: r) = numLikeCore r := rfl

theorem numLike_eq_core_of_ne {c : Char} (hc : c ≠ '-') (r : List Char) :
    numLike (c :: r) = numLikeCore (c :: r) := by
  rw [numLike_eq_core]
  congr 1
  split
  next r2 heq =>
    injection heq with h1 h2
    exact absurd h1 hc
  next => rfl

theorem numLike_iff (cs : List Char) : numLike cs = true ↔ NumRegex cs := by
  constructor
  · intro h
    cases cs with
    | nil => exact absurd h (by decide)
    | cons c r =>
      by_cases hc : c = '-'
      · subst hc
        have h' : numLikeCore r = true := h
        obtain ⟨ds, frac, suffix, p1, p2, p3, p4, p5⟩ := (numLikeCore_iff r).1 h'
        exact ⟨true, ds, frac, suffix, p1, p2, p3, p4, by simp [p5]⟩
      · rw [numLike_eq_core_of_ne hc] at h
        obtain ⟨ds, frac, suffix, p1, p2, p3, p4, p5⟩ := (numLikeCore_iff _).1 h
        exact ⟨false, ds, frac, suffix, p1, p2, p3, p4, by simpa using p5⟩
  · rintro ⟨sign, ds, frac, suffix, p1, p2, p3, p4, p5⟩
    rcases frac with _ | f <;> rcases suffix with _ | c
    · cases sign with
      | true =>
        simp at p5
        rw [p5, numLike_cons_dash]
        exact (numLikeCore_iff _).2 ⟨ds, none, none, p1, p2, p3, p4, by simp⟩
      | false =>
        simp at p5
        cases ds with
        | nil => exact absurd rfl p1
        | cons d0 ds' =>
          have hd0 : d0.isDigit = true := by
            simp only [List.all_cons, Bool.and_eq_true] at p2
            exact p2.1
          have hne' : d0 ≠ '-' := by
            intro hh
            rw [hh] at hd0
            exact absurd hd0 (by decide)
          rw [p5]
          rw [numLike_eq_core_of_ne hne']
          exact (numLikeCore_iff _).2 ⟨d0 :: ds', none, none, p1, p2, p3, p4, by simp⟩
    · cases sign with
      | true =>
        simp at p5
        rw [p5, numLike_cons_dash]
        exact (numLikeCore_iff _).2 ⟨ds, none, some c, p1, p2, p3, p4, by simp⟩
      | false =>
        simp at p5
        cases ds with
        | nil => exact absurd rfl p1
        | cons d0 ds' =>
          have hd0 : d0.isDigit = true := by
            simp only [List.all_cons, Bool.and_eq_true] at p2
            exact p2.1
          have hne' : d0 ≠ '-' := by
            intro hh
            rw [hh] at hd0
            exact absurd hd0 (by decide)
          rw [p5]
          simp only [List.cons_append]
          rw [numLike_eq_core_of_ne hne']
          exact (numLikeCore_iff _).2 ⟨d0 :: ds', none, some c, p1, p2, p3, p4, by simp⟩
    · cases sign with
      | true =>
        simp at p5
        rw [p5, numLike_cons_dash]
        exact (numLikeCore_iff _).2 ⟨ds, some f, none, p1, p2, p3, p4, by simp⟩
      | false =>
        simp at p5
        cases ds with
        | nil => exact absurd rfl p1
        | cons d0 ds' =>
          have hd0 : d0.isDigit = true := by
            simp only [List.all_cons, Bool.and_eq_true] at p2
            exact p2.1
          have hne' : d0 ≠ '-' := by
            intro hh
            rw [hh] at hd0
            exact absurd hd0 (by decide)
          rw [p5]
          simp only [List.cons_append]
          rw [numLike_eq_core_of_ne hne']
          exact (numLikeCore_iff _).2 ⟨d0 :: ds', some f, none, p1, p2, p3, p4, by simp⟩
    · cases sign with
      | true =>
        simp at p5
        rw [p5, numLike_cons_dash]
        exact (numLikeCore_iff _).2 ⟨ds, some f, some c, p1, p2, p3, p4, by simp⟩
      | false =>
        simp at p5
        cases ds with
        | nil => exact absurd rfl p1
        | cons d0 ds' =>
          have hd0 : d0.isDigit = true := by
            simp only [List.all_cons, Bool.and_eq_true] at p2
            exact p2.1
          have hne' : d0 ≠ '-' := by
            intro hh
            rw [hh] at hd0
            exact absurd hd0 (by decide)
          rw [p5]
          simp only [List.cons_append]
          rw [numLike_eq_core_of_ne hne']
          exact (numLikeCore_iff _).2 ⟨d0 :: ds', some f, some c, p1, p2, p3, p4, by simp⟩

/-- The quoting triggers of the spec, rendered from its words: a string must
be quoted when it is empty, contains a special character, contains a
non-space delimiter, begins or ends with a space, is a bare `T`/`F`/`N`
keyword, matches the number regex, or starts with a sigil character. -/
def SpecMustQuote (s : String) (delimiter : Char) : Prop :=
  s.data = [] ∨
  (∃ c, c ∈ [':', '"', '\\', '\n', '\r', '\t'] ∧ c ∈ s.data) ∨
  (delimiter ≠ ' ' ∧ delimiter ∈ s.data) ∨
  s.data.head? = some ' ' ∨ s.data.getLast? = some ' ' ∨
  s = "T" ∨ s = "F" ∨ s = "N" ∨
  NumRegex s.data ∨
  (∃ c rest, s.data = c :: rest ∧ c ∈ "#@$~^>-".data)

theorem needsQuotes_iff (s : String) (delimiter : Char) :
    needsQuotes s delimiter = true ↔ SpecMustQuote s delimiter := by
  constructor
  · intro h
    simp only [needsQuotes] at h
    split at h
    next h1 => exact Or.inl h1
    next h1 =>
      split at h
      next h2 =>
        refine Or.inr (Or.inl ?_)
        simpa using h2
      next h2 =>
        split at h
        next h3 =>
          refine Or.inr (Or.inr (Or.inl ?_))
          simpa using h3
        next h3 =>
          split at h
          next h4 =>
            rcases (by simpa using h4 :
                s.data.head? = some ' ' ∨ s.data.getLast? = some ' ') with hh | hh
            · exact Or.inr (Or.inr (Or.inr (Or.inl hh)))
            · exact Or.inr (Or.inr (Or.inr (Or.inr (Or.inl hh))))
          next h4 =>
            split at h
            next h5 =>
              rcases (by simpa using h5 :
                  (s.data = ['T'] ∨ s.data = ['F']) ∨ s.data = ['N']) with (hh | hh) | hh
              · exact Or.inr (Or.inr (Or.inr (Or.inr (Or.inr (Or.inl (String.ext hh))))))
              · exact Or.inr (Or.inr (Or.inr (Or.inr (Or.inr (Or.inr (Or.inl
                  (String.ext hh)))))))
              · exact Or.inr (Or.inr (Or.inr (Or.inr (Or.inr (Or.inr (Or.inr (Or.inl
                  (String.ext hh))))))))
            next h5 =>
              split at h
              next h6 =>
                exact Or.inr (Or.inr (Or.inr (Or.inr (Or.inr (Or.inr (Or.inr (Or.inr
                  (Or.inl ((numLike_iff _).1 h6)))))))))
              next h6 =>
                split at h
                next c rest heq =>
                  refine Or.inr (Or.inr (Or.inr (Or.inr (Or.inr (Or.inr (Or.inr (Or.inr
                    (Or.inr ⟨c, rest, heq, ?_⟩))))))))
                  simpa using h
                next heq => simp at h
  · intro h
    cases hq : needsQuotes s delimiter with
    | true => rfl
    | false =>
      exfalso
      simp only [needsQuotes] at hq
      split at hq
      next h1 => simp at hq
      next h1 =>
        split at hq
        next h2 => simp at hq
        next h2 =>
          split at hq
          next h3 => simp at hq
          next h3 =>
            split at hq
            next h4 => simp at hq
            next h4 =>
              split at hq
              next h5 => simp at hq
              next h5 =>
                split at hq
                next h6 => simp at hq
                next h6 =>
                  rcases h with h | h | h | h | h | h | h | h | h | h
                  · exact h1 h
                  · apply h2
                    simpa using h
                  · apply h3
                    simpa using h
                  · apply h4
                    simp [h]
                  · apply h4
                    simp [h]
                  · apply h5
                    simp [h]
                  · apply h5
                    simp [h]
                  · apply h5
                    simp [h]
                  · exact absurd ((numLike_iff _).2 h) h6
                  · obtain ⟨c, rest, heqd, hcmem⟩ := h
                    rw [heqd] at hq
                    simp at hq
                    exact absurd hcmem (by simpa using hq)

/-- C4: the encoder emits a string quoted and escaped precisely when one of
the spec's listed triggers holds (`SpecMustQuote`, stated from the spec's
words with the number rule as the regex decomposition `NumRegex`), and
otherwise emits it unquoted with each space replaced by an underscore:
`needs_quotes` agrees with the trigger list, and `encode_string` quotes and
escapes exactly when it fires. -/
theorem c4_quoting (o : NeonEncodeOptions) (s : String) :
    (needsQuotes s o.delimiter = true ↔ SpecMustQuote s o.delimiter) ∧
    encodeString o s =
      (if needsQuotes s o.delimiter then '"' :: escapeString s.data ++ ['"']
       else replaceChar ' ' '_' s.data) := by
  refine ⟨needsQuotes_iff s o.delimiter, ?_⟩
  unfold encodeString
  by_cases he : s.data = []
  · rw [if_pos he]
    have hq : needsQuotes s o.delimiter = true := by simp [needsQuotes, he]
    rw [if_pos hq, he]
    rfl
  · rw [if_neg he]

end Neon

namespace Neon

/-! ## C2: the tabular-array round-trip -/

theorem pair_eta {α β : Type} (p : α × β) : ∃ a b, p = (a, b) := ⟨p.1, p.2, rfl⟩

theorem scanNumber_suffix_le (cs : List Char) : (scanNumber cs).2.length ≤ cs.length := by
  simp only [scanNumber]
  obtain ⟨sgn, r1, hp1⟩ := pair_eta (match cs with
      | '-' :: r => ((['-'] : List Char), r) | x => ([], cs))
  rw [hp1]
  have hr1 : r1.length ≤ cs.length := by
    split at hp1
    next cs2 r =>
      injection hp1 with ha hb
      subst hb
      simp
    next cs2 hx =>
      injection hp1 with ha hb
      subst hb
      simp
  dsimp only
  obtain ⟨ld, r2, hp2⟩ := pair_eta (match r1 with
      | '.' :: r => ((['.'] : List Char), r) | x => ([], r1))
  rw [hp2]
  have hr2 : r2.length ≤ r1.length := by
    split at hp2
    next r12 r =>
      injection hp2 with ha hb
      subst hb
      simp
    next r12 hx =>
      injection hp2 with ha hb
      subst hb
      simp
  dsimp only
  obtain ⟨fr, r4, hp4⟩ := pair_eta (match r2.drop (List.takeWhile (fun x => x.isDigit) r2).length with
    | '.' :: r => ('.' :: List.takeWhile (fun x => x.isDigit) r,
        r.drop (List.takeWhile (fun x => x.isDigit) r).length)
    | x => (([] : List Char), r2.drop (List.takeWhile (fun x => x.isDigit) r2).length))
  rw [hp4]
  have hr4 : r4.length ≤ r2.length := by
    split at hp4
    next r heq =>
      injection hp4 with ha hb
      subst hb
      have hlr : r.length < r2.length := by
        have := congrArg List.length heq
        simp at this
        omega
      simp
      omega
    next =>
      injection hp4 with ha hb
      subst hb
      simp
  dsimp only
  obtain ⟨sfx, r5, hp5⟩ := pair_eta (match r4 with
    | c :: r => if "KMBT".data.contains c then (([c] : List Char), r) else ([], r4)
    | x => (([] : List Char), r4))
  rw [hp5]
  have hr5 : r5.length ≤ r4.length := by
    split at hp5
    next c r =>
      split at hp5 <;> (injection hp5 with ha hb; subst hb) <;> simp
    next hx =>
      injection hp5 with ha hb
      subst hb
      simp
  dsimp only
  omega

end Neon
